import Mathlib

/-!
Shallow embedding of the core of the `small_string` repository: the tagged
two-word `Repr` value (`src/repr.rs`), the reference-counted `HeapBuffer`
(`src/repr/heap_buffer.rs`), the borrowed `StaticBuffer`
(`src/repr/static_buffer.rs`) and the `clear` wrapper of `LeanString`
(`src/lib.rs`), specialised to the 64-bit target.

Byte sequences are `List Nat` (each entry a byte value), machine integers are
`Nat` with the overflow checks of the source made explicit, and the heap is an
explicit `Store` mapping buffer ids to refcounted buffers.  Fallible
operations return `Except ReserveError`; operations whose source can panic on
a violated precondition (assertion failures, debug-checked unreachable arms)
return `Option (Except ReserveError _)` with `none` for the panic.
-/

namespace LeanStr

/-- Word size in bytes of the modelled 64-bit target. -/
def USIZE_SIZE : Nat := 8

/-- Inline capacity: `2 * size_of::<usize>()` (`repr.rs`). -/
def MAX_INLINE_SIZE : Nat := 2 * USIZE_SIZE

/-- Largest value of a `usize` on the modelled target. -/
def USIZE_MAX : Nat := 2 ^ 64 - 1

/-- Largest length representable by `TextSize` (`heap_buffer.rs`) and by
`StaticBuffer::MAX_LENGTH` (`static_buffer.rs`): `2^56 - 1` on 64-bit. -/
def TEXT_SIZE_MAX : Nat := 2 ^ 56 - 1

/-- Size of the heap `Header { count, capacity }` (two words). -/
def HEADER_SIZE : Nat := 2 * USIZE_SIZE

/-- Allocation size limit `(isize::MAX as usize + 1) - align` from
`HeapBuffer::realloc`; `Layout::from_size_align` enforces the same bound. -/
def ALLOC_LIMIT : Nat := 2 ^ 63 - 8

/-- The single recoverable error of the crate (`reserve_error.rs`). -/
inductive ReserveError where
  | mk
deriving DecidableEq

/-- Number of bytes of the UTF-8 encoding of a scalar value (`char::len_utf8`). -/
def utf8Len (c : Nat) : Nat :=
  if c < 0x80 then 1 else if c < 0x800 then 2 else if c < 0x10000 then 3 else 4

/-- UTF-8 encoding of a scalar value (`char::encode_utf8`). -/
def encodeChar (c : Nat) : List Nat :=
  if c < 0x80 then [c]
  else if c < 0x800 then [0xC0 + c / 64, 0x80 + c % 64]
  else if c < 0x10000 then [0xE0 + c / 4096, 0x80 + c / 64 % 64, 0x80 + c % 64]
  else [0xF0 + c / 262144, 0x80 + c / 4096 % 64, 0x80 + c / 64 % 64, 0x80 + c % 64]

/-- Encoding of a sequence of scalar values. -/
def utf8Encode (cs : List Nat) : List Nat := (cs.map encodeChar).flatten

/-- A Unicode scalar value: in range and not a surrogate. -/
def Scalar (c : Nat) : Prop := c < 0x110000 ∧ ¬(0xD800 ≤ c ∧ c < 0xE000)

instance : DecidablePred Scalar := fun c => by unfold Scalar; infer_instance

/-- A byte list is valid UTF-8 iff it is the encoding of some scalar sequence. -/
def ValidUtf8 (bs : List Nat) : Prop :=
  ∃ cs, (∀ c ∈ cs, Scalar c) ∧ bs = utf8Encode cs

/-- UTF-8 continuation byte test (`b & 0xC0 == 0x80`). -/
def isCont (b : Nat) : Bool := 0x80 ≤ b && b < 0xC0

/-- Forward decoding of one character, mirroring Rust
`core::str::next_code_point`, which backs `str::chars().next()`.  Returns the
scalar value and the number of bytes consumed. -/
def decodeFirst : List Nat → Option (Nat × Nat)
  | [] => none
  | b0 :: rest =>
    if b0 < 0x80 then some (b0, 1)
    else
      match rest with
      | [] => none
      | b1 :: rest1 =>
        if b0 < 0xE0 then some (b0 % 32 * 64 + b1 % 64, 2)
        else
          match rest1 with
          | [] => none
          | b2 :: rest2 =>
            if b0 < 0xF0 then some (b0 % 32 * 4096 + b1 % 64 * 64 + b2 % 64, 3)
            else
              match rest2 with
              | [] => none
              | b3 :: _ => some (b0 % 8 * 262144 + b1 % 64 * 4096 + b2 % 64 * 64 + b3 % 64, 4)

/-- Backward decoding step on the reversed byte list, mirroring Rust
`core::str::next_code_point_reverse`, which backs `str::chars().next_back()`. -/
def decodeLastRev : List Nat → Option (Nat × Nat)
  | [] => none
  | w :: rest =>
    if w < 0x80 then some (w, 1)
    else
      match rest with
      | [] => none
      | z :: rest1 =>
        if isCont z then
          match rest1 with
          | [] => none
          | y :: rest2 =>
            if isCont y then
              match rest2 with
              | [] => none
              | x :: _ => some (x % 8 * 262144 + y % 64 * 4096 + z % 64 * 64 + w % 64, 4)
            else some (y % 16 * 4096 + z % 64 * 64 + w % 64, 3)
        else some (z % 32 * 64 + w % 64, 2)

/-- Decoding of the final character of a byte list (`str::chars().next_back()`). -/
def decodeLast (bs : List Nat) : Option (Nat × Nat) := decodeLastRev bs.reverse

/-- Char-boundary test, mirroring `str::is_char_boundary`. -/
def isCharBoundary (bs : List Nat) (i : Nat) : Bool :=
  if i = 0 then true
  else
    match bs[i]? with
    | some b => decide (b < 0x80) || decide (0xC0 ≤ b)
    | none => i == bs.length

/-- A reference-counted heap buffer: the `Header` fields plus the byte payload
(always `capacity` bytes long; bytes past the string length are scratch).
A `count` of zero marks a deallocated buffer. -/
structure HeapBuf where
  count : Nat
  capacity : Nat
  data : List Nat

/-- The modelled heap: buffer ids below `next` have been allocated. -/
structure Store where
  bufs : Nat → HeapBuf
  next : Nat

/-- Replace the buffer stored at id `i`. -/
def setBuf (st : Store) (i : Nat) (b : HeapBuf) : Store :=
  { st with bufs := fun j => if j = i then b else st.bufs j }

/-- Store with no allocated buffer. -/
def emptyStore : Store :=
  { bufs := fun _ => { count := 0, capacity := 0, data := [] }, next := 0 }

/-- Payload padded with scratch zero bytes up to the capacity. -/
def padTo (content : List Nat) (cap : Nat) : List Nat :=
  content ++ List.replicate (cap - content.length) 0

/-- Saturating `usize` addition. -/
def satAdd (a b : Nat) : Nat := min (a + b) USIZE_MAX

/-- Amortized growth policy (`heap_buffer.rs`):
`max(cur_len.saturating_add(additional), cur_len.saturating_mul(3) / 2)`. -/
def amortizedGrowth (curLen additional : Nat) : Nat :=
  max (min (curLen * 3) USIZE_MAX / 2) (satAdd curLen additional)

/-- Allocation of a fresh buffer holding `content` with capacity `cap`, i.e.
`HeapBuffer::allocate_ptr` followed by the payload copy.  The modelled
allocator fails exactly when the layout bound is exceeded. -/
def allocBuf (st : Store) (cap : Nat) (content : List Nat) :
    Except ReserveError (Nat × Store) :=
  if ALLOC_LIMIT < HEADER_SIZE + cap then .error .mk
  else
    .ok (st.next,
      { bufs := fun j =>
          if j = st.next then { count := 1, capacity := cap, data := padTo content cap }
          else st.bufs j,
        next := st.next + 1 })

/-- Model of `HeapBuffer::new`. -/
def heapNew (text : List Nat) (st : Store) : Except ReserveError (Nat × Store) :=
  if TEXT_SIZE_MAX < text.length then .error .mk
  else allocBuf st text.length text

/-- Model of `HeapBuffer::with_additional`. -/
def heapWithAdditional (text : List Nat) (additional : Nat) (st : Store) :
    Except ReserveError (Nat × Store) :=
  if TEXT_SIZE_MAX < text.length then .error .mk
  else allocBuf st (amortizedGrowth text.length additional) text

/-- Model of `HeapBuffer::realloc` (caller guarantees uniqueness): the header
is re-initialised with `count = 1` and the new capacity, and the first
`min(old, new)` payload bytes are preserved. -/
def heapRealloc (st : Store) (i : Nat) (newCap : Nat) : Except ReserveError Store :=
  if ALLOC_LIMIT < satAdd HEADER_SIZE newCap then .error .mk
  else
    .ok (setBuf st i
      { count := 1, capacity := newCap, data := padTo ((st.bufs i).data.take newCap) newCap })

/-- Decrement of the reference count of buffer `i` (`fetch_sub(1, Release)`). -/
def decRef (st : Store) (i : Nat) : Store :=
  setBuf st i
    { count := (st.bufs i).count - 1, capacity := (st.bufs i).capacity,
      data := (st.bufs i).data }

/-- The two-word tagged value (`repr.rs`), one constructor per variant.
An inline value carries its content bytes; a heap value carries the buffer id
(word A) and the length packed beside the tag; a static value carries the
borrowed bytes and the current length. -/
inductive Repr where
  | inline (data : List Nat)
  | heap (id : Nat) (len : Nat)
  | static (data : List Nat) (len : Nat)
deriving DecidableEq

/-- Model of `Repr::len`. -/
def Repr.len : Repr → Nat
  | .inline d => d.length
  | .heap _ l => l
  | .static _ l => l

/-- Model of `Repr::is_heap_buffer` / `LeanString::is_heap_allocated`. -/
def Repr.isHeapBuffer : Repr → Bool
  | .heap _ _ => true
  | _ => false

/-- Model of `Repr::is_static_buffer`. -/
def Repr.isStaticBuffer : Repr → Bool
  | .static _ _ => true
  | _ => false

/-- Model of `Repr::capacity`. -/
def Repr.capacity (r : Repr) (st : Store) : Nat :=
  match r with
  | .heap i _ => (st.bufs i).capacity
  | .static _ l => l
  | .inline _ => MAX_INLINE_SIZE

/-- Model of `Repr::as_bytes`. -/
def Repr.asBytes (r : Repr) (st : Store) : List Nat :=
  match r with
  | .inline d => d
  | .heap i l => (st.bufs i).data.take l
  | .static d l => d.take l

/-- Model of `Repr::is_unique`. -/
def Repr.isUnique (r : Repr) (st : Store) : Bool :=
  match r with
  | .heap i _ => (st.bufs i).count == 1
  | _ => true

/-- Model of `Repr::from_str`. -/
def Repr.fromStr (s : List Nat) (st : Store) : Except ReserveError (Repr × Store) :=
  if s.length ≤ MAX_INLINE_SIZE then .ok (.inline s, st)
  else (heapNew s st).map fun p => (.heap p.1 s.length, p.2)

/-- Model of `Repr::from_static_str`. -/
def Repr.fromStaticStr (s : List Nat) (st : Store) : Except ReserveError (Repr × Store) :=
  if s.length ≤ MAX_INLINE_SIZE then .ok (.inline s, st)
  else if TEXT_SIZE_MAX < s.length then .error .mk
  else .ok (.static s s.length, st)

/-- Model of `Repr::make_shallow_clone`: bump the refcount of a heap buffer,
then bitwise-copy the value. -/
def Repr.makeShallowClone (r : Repr) (st : Store) : Repr × Store :=
  match r with
  | .heap i l =>
    (.heap i l,
      setBuf st i
        { count := (st.bufs i).count + 1, capacity := (st.bufs i).capacity,
          data := (st.bufs i).data })
  | _ => (r, st)

/-- Model of `Repr::replace_inner`: release the old heap reference, then
overwrite the value. -/
def Repr.replaceInner (r other : Repr) (st : Store) : Repr × Store :=
  match r with
  | .heap i _ => (other, decRef st i)
  | _ => (other, st)

/-- Model of `Repr::reserve`. -/
def Repr.reserve (r : Repr) (additional : Nat) (st : Store) :
    Except ReserveError (Repr × Store) :=
  if USIZE_MAX < r.len + additional then .error .mk
  else
    match r with
    | .heap i l =>
      if (st.bufs i).count = 1 then
        if l + additional ≤ (st.bufs i).capacity then .ok (.heap i l, st)
        else (heapRealloc st i (amortizedGrowth l additional)).map fun st2 => (.heap i l, st2)
      else
        (heapWithAdditional ((st.bufs i).data.take l) additional (decRef st i)).map
          fun p => (.heap p.1 l, p.2)
    | .static d l =>
      if l + additional ≤ MAX_INLINE_SIZE then .ok (.inline (d.take l), st)
      else (heapWithAdditional (d.take l) additional st).map fun p => (.heap p.1 l, p.2)
    | .inline d =>
      if d.length + additional ≤ MAX_INLINE_SIZE then .ok (.inline d, st)
      else (heapWithAdditional d additional st).map fun p => (.heap p.1 d.length, p.2)

/-- Model of `Repr::shrink_to`. -/
def Repr.shrinkTo (r : Repr) (minCapacity : Nat) (st : Store) :
    Except ReserveError (Repr × Store) :=
  match r with
  | .heap i l =>
    if max l minCapacity ≤ MAX_INLINE_SIZE then
      .ok (.inline ((st.bufs i).data.take l), decRef st i)
    else if (st.bufs i).capacity ≤ max l minCapacity then .ok (.heap i l, st)
    else if (st.bufs i).count = 1 then
      (heapRealloc st i (max l minCapacity)).map fun st2 => (.heap i l, st2)
    else
      (heapWithAdditional ((st.bufs i).data.take l) (max l minCapacity - l) st).map
        fun p => (.heap p.1 l, p.2)
  | _ => .ok (r, st)

/-- Model of `Repr::ensure_modifiable`. -/
def Repr.ensureModifiable (r : Repr) (st : Store) : Except ReserveError (Repr × Store) :=
  match r with
  | .heap i l =>
    if (st.bufs i).count = 1 then .ok (.heap i l, st)
    else (heapNew ((st.bufs i).data.take l) (decRef st i)).map fun p => (.heap p.1 l, p.2)
  | .static d l => Repr.fromStr (d.take l) st
  | .inline d => .ok (.inline d, st)

/-- Model of `Repr::set_len` (callers hold the safety contract; the
`TextSize`/inline range checks that the source debug-panics on are `none`). -/
def Repr.setLen : Repr → Nat → Option Repr
  | .static d _, n => some (.static d n)
  | .heap i _, n => if n ≤ TEXT_SIZE_MAX then some (.heap i n) else none
  | .inline d, n => if n ≤ MAX_INLINE_SIZE then some (.inline (d.take n)) else none

/-- Combined model of `Repr::as_slice_mut`, the byte copy of a mutating
operation, and the final `Repr::set_len`: replace the whole content with `c`.
Out-of-capacity writes and a static target are panics (`none`). -/
def Repr.writeContent (r : Repr) (c : List Nat) (st : Store) : Option (Repr × Store) :=
  match r with
  | .inline _ => if c.length ≤ MAX_INLINE_SIZE then some (.inline c, st) else none
  | .heap i _ =>
    if c.length ≤ (st.bufs i).capacity ∧ c.length ≤ TEXT_SIZE_MAX then
      some (.heap i c.length,
        setBuf st i
          { count := (st.bufs i).count, capacity := (st.bufs i).capacity,
            data := c ++ (st.bufs i).data.drop c.length })
    else none
  | .static _ _ => none

/-- Model of `Repr::push_str`. -/
def Repr.pushStr (r : Repr) (s : List Nat) (st : Store) :
    Option (Except ReserveError (Repr × Store)) :=
  if s.length = 0 then some (.ok (r, st))
  else
    match r.reserve s.length st with
    | .error e => some (.error e)
    | .ok (r1, st1) => (r1.writeContent (r1.asBytes st1 ++ s) st1).map .ok

/-- Model of `Repr::pop`. -/
def Repr.pop (r : Repr) (st : Store) :
    Option (Except ReserveError (Option Nat × Repr × Store)) :=
  match decodeLast (r.asBytes st) with
  | none => some (.ok (none, r, st))
  | some (c, k) =>
    match r with
    | .heap i l =>
      if (st.bufs i).count = 1 then
        (Repr.setLen (.heap i l) (l - k)).map fun r2 => .ok (some c, r2, st)
      else
        match Repr.fromStr ((st.bufs i).data.take (l - k)) (decRef st i) with
        | .error e => some (.error e)
        | .ok (r2, st2) => some (.ok (some c, r2, st2))
    | .static d l => some (.ok (some c, .static d (l - k), st))
    | .inline d => some (.ok (some c, .inline (d.take (d.length - k)), st))

/-- Model of `Repr::remove`; the two leading assertion failures are `none`. -/
def Repr.remove (r : Repr) (idx : Nat) (st : Store) :
    Option (Except ReserveError (Nat × Repr × Store)) :=
  if isCharBoundary (r.asBytes st) idx = true ∧ idx < r.len then
    match r.ensureModifiable st with
    | .error e => some (.error e)
    | .ok (r1, st1) =>
      let bytes := r1.asBytes st1
      match decodeFirst (bytes.drop idx) with
      | none => none
      | some (c, k) =>
        (r1.writeContent (bytes.take idx ++ bytes.drop (idx + k)) st1).map
          fun p => .ok (c, p.1, p.2)
  else none

/-- Fuel-indexed model of the two-cursor compaction loop of `Repr::retain`;
the fuel is an upper bound on the number of iterations. -/
def retainAux (p : Nat → Bool) : Nat → List Nat → List Nat
  | 0, _ => []
  | _ + 1, [] => []
  | fuel + 1, b :: rest =>
    match decodeFirst (b :: rest) with
    | none => []
    | some (c, k) =>
      (if p c then (b :: rest).take k else []) ++ retainAux p fuel ((b :: rest).drop k)

/-- Content computed by the compaction loop of `Repr::retain`. -/
def retainBytes (p : Nat → Bool) (bs : List Nat) : List Nat := retainAux p bs.length bs

/-- Model of `Repr::retain`. -/
def Repr.retain (r : Repr) (p : Nat → Bool) (st : Store) :
    Option (Except ReserveError (Repr × Store)) :=
  match r.ensureModifiable st with
  | .error e => some (.error e)
  | .ok (r1, st1) => (r1.writeContent (retainBytes p (r1.asBytes st1)) st1).map .ok

/-- Model of `Repr::insert_str`; the boundary assertion failure is `none`. -/
def Repr.insertStr (r : Repr) (idx : Nat) (s : List Nat) (st : Store) :
    Option (Except ReserveError (Repr × Store)) :=
  if isCharBoundary (r.asBytes st) idx = true then
    if USIZE_MAX < r.len + s.length then some (.error .mk)
    else
      match r.reserve s.length st with
      | .error e => some (.error e)
      | .ok (r1, st1) =>
        let bytes := r1.asBytes st1
        (r1.writeContent (bytes.take idx ++ s ++ bytes.drop idx) st1).map .ok
  else none

/-- Model of `LeanString::clear` (`lib.rs`). -/
def clearLS (r : Repr) (st : Store) : Option (Repr × Store) :=
  if r.isUnique st then (r.setLen 0).map fun r2 => (r2, st)
  else some (r.replaceInner (.inline []) st)

/-- One user-visible mutation, as enumerated by the copy-on-write and UTF-8
preservation properties of the spec. -/
inductive Mutation where
  | pushStr (s : List Nat)
  | pop
  | remove (idx : Nat)
  | insertStr (idx : Nat) (s : List Nat)
  | retain (p : Nat → Bool)
  | reserve (n : Nat)
  | shrinkTo (n : Nat)
  | clear

/-- Application of one mutation (return values of `pop`/`remove` dropped). -/
def applyMut (m : Mutation) (r : Repr) (st : Store) :
    Option (Except ReserveError (Repr × Store)) :=
  match m with
  | .pushStr s => r.pushStr s st
  | .pop => (r.pop st).map (Except.map fun p => (p.2.1, p.2.2))
  | .remove idx => (r.remove idx st).map (Except.map fun p => (p.2.1, p.2.2))
  | .insertStr idx s => r.insertStr idx s st
  | .retain p => r.retain p st
  | .reserve n => some (r.reserve n st)
  | .shrinkTo n => some (r.shrinkTo n st)
  | .clear => (clearLS r st).map .ok

/-- Application of a sequence of mutations, stopping at the first error or
panic. -/
def applySeq : List Mutation → Repr → Store → Option (Except ReserveError (Repr × Store))
  | [], r, st => some (.ok (r, st))
  | m :: ms, r, st =>
    match applyMut m r st with
    | some (.ok (r1, st1)) => applySeq ms r1 st1
    | some (.error e) => some (.error e)
    | none => none

/-- Well-formedness of a `Repr` against the store: the structural invariants
that the source maintains (length within capacity, payload of exactly
capacity bytes, live refcount, allocated id, representable length). -/
def WF (r : Repr) (st : Store) : Prop :=
  match r with
  | .inline d => d.length ≤ MAX_INLINE_SIZE
  | .heap i l =>
    i < st.next ∧ 1 ≤ (st.bufs i).count ∧ l ≤ (st.bufs i).capacity ∧
      (st.bufs i).data.length = (st.bufs i).capacity ∧ l ≤ TEXT_SIZE_MAX ∧
      HEADER_SIZE + (st.bufs i).capacity ≤ ALLOC_LIMIT
  | .static d l => l ≤ d.length ∧ l ≤ TEXT_SIZE_MAX

instance (r : Repr) (st : Store) : Decidable (WF r st) := by
  unfold WF; cases r <;> infer_instance

/-- Side condition on a mutation: strings pushed or inserted are UTF-8
(as the Rust `&str` argument type guarantees). -/
def MutOK : Mutation → Prop
  | .pushStr s => ValidUtf8 s
  | .insertStr _ s => ValidUtf8 s
  | _ => True

/-- The buffer id `j` is safe from in-place modification through `r`: if `r`
points at `j`, the buffer is shared. -/
def Avoids (r : Repr) (st : Store) (j : Nat) : Prop :=
  ∀ l, r = .heap j l → 2 ≤ (st.bufs j).count

/-- Uniqueness of the buffer a heap `Repr` points at, as established by a
modifiability transition. -/
def UniqueIfHeap (r : Repr) (st : Store) : Prop :=
  ∀ i l, r = .heap i l → (st.bufs i).count = 1

end LeanStr

namespace LeanStr

/-! Basic facts about the store helpers. -/

theorem setBuf_bufs_self (st : Store) (i : Nat) (b : HeapBuf) : (setBuf st i b).bufs i = b := by
  simp [setBuf]

theorem setBuf_bufs_ne (st : Store) (i : Nat) (b : HeapBuf) (j : Nat) (h : j ≠ i) :
    (setBuf st i b).bufs j = st.bufs j := by
  simp [setBuf, h]

theorem setBuf_next (st : Store) (i : Nat) (b : HeapBuf) : (setBuf st i b).next = st.next := rfl

theorem decRef_next (st : Store) (i : Nat) : (decRef st i).next = st.next := rfl

theorem decRef_data (st : Store) (i j : Nat) : ((decRef st i).bufs j).data = (st.bufs j).data := by
  by_cases h : j = i
  · subst h; simp [decRef, setBuf_bufs_self]
  · simp [decRef, setBuf_bufs_ne _ _ _ _ h]

theorem decRef_capacity (st : Store) (i j : Nat) :
    ((decRef st i).bufs j).capacity = (st.bufs j).capacity := by
  by_cases h : j = i
  · subst h; simp [decRef, setBuf_bufs_self]
  · simp [decRef, setBuf_bufs_ne _ _ _ _ h]

theorem decRef_count_ne (st : Store) (i j : Nat) (h : j ≠ i) :
    ((decRef st i).bufs j).count = (st.bufs j).count := by
  simp [decRef, setBuf_bufs_ne _ _ _ _ h]

theorem padTo_length (c : List Nat) (cap : Nat) (h : c.length ≤ cap) :
    (padTo c cap).length = cap := by
  simp [padTo]; omega

theorem padTo_take (c : List Nat) (cap : Nat) : (padTo c cap).take c.length = c :=
  List.take_left _ _

theorem padTo_take_of_le (c : List Nat) (cap n : Nat) (h : n ≤ c.length) :
    (padTo c cap).take n = c.take n :=
  List.take_append_of_le_length h

/-! Arithmetic facts about the size bounds. -/

theorem text_le_alloc {n : Nat} (h : n ≤ TEXT_SIZE_MAX) :
    ¬ ALLOC_LIMIT < HEADER_SIZE + n := by
  unfold ALLOC_LIMIT HEADER_SIZE TEXT_SIZE_MAX USIZE_SIZE at *; omega

theorem le_amortizedGrowth (len add : Nat) (h : len + add ≤ USIZE_MAX) :
    len + add ≤ amortizedGrowth len add := by
  unfold amortizedGrowth satAdd
  omega

/-! Specifications of the heap-buffer operations. -/

theorem allocBuf_spec (st : Store) (cap : Nat) (content : List Nat)
    (h : HEADER_SIZE + cap ≤ ALLOC_LIMIT) :
    ∃ st2, allocBuf st cap content = .ok (st.next, st2) ∧ st2.next = st.next + 1 ∧
      st2.bufs st.next = { count := 1, capacity := cap, data := padTo content cap } ∧
      ∀ j, j ≠ st.next → st2.bufs j = st.bufs j := by
  refine ⟨⟨fun j =>
      if j = st.next then { count := 1, capacity := cap, data := padTo content cap }
      else st.bufs j, st.next + 1⟩, ?_, rfl, ?_, ?_⟩
  · simp [allocBuf, Nat.not_lt.mpr h]
  · simp
  · intro j hj; simp [hj]

theorem heapNew_spec (s : List Nat) (st : Store) (hs : s.length ≤ TEXT_SIZE_MAX) :
    ∃ st2, heapNew s st = .ok (st.next, st2) ∧ st2.next = st.next + 1 ∧
      st2.bufs st.next = { count := 1, capacity := s.length, data := padTo s s.length } ∧
      ∀ j, j ≠ st.next → st2.bufs j = st.bufs j := by
  obtain ⟨st2, h1, h2, h3, h4⟩ :=
    allocBuf_spec st s.length s (Nat.not_lt.mp (text_le_alloc hs))
  exact ⟨st2, by simp [heapNew, Nat.not_lt.mpr hs, h1], h2, h3, h4⟩

theorem heapWithAdditional_spec (s : List Nat) (add : Nat) (st : Store)
    (hs : s.length ≤ TEXT_SIZE_MAX)
    (halloc : HEADER_SIZE + amortizedGrowth s.length add ≤ ALLOC_LIMIT) :
    ∃ st2, heapWithAdditional s add st = .ok (st.next, st2) ∧ st2.next = st.next + 1 ∧
      st2.bufs st.next =
        { count := 1, capacity := amortizedGrowth s.length add,
          data := padTo s (amortizedGrowth s.length add) } ∧
      ∀ j, j ≠ st.next → st2.bufs j = st.bufs j := by
  obtain ⟨st2, h1, h2, h3, h4⟩ := allocBuf_spec st (amortizedGrowth s.length add) s halloc
  exact ⟨st2, by simp [heapWithAdditional, Nat.not_lt.mpr hs, h1], h2, h3, h4⟩

theorem heapRealloc_spec (st : Store) (i newCap : Nat)
    (h : satAdd HEADER_SIZE newCap ≤ ALLOC_LIMIT) :
    heapRealloc st i newCap =
      .ok (setBuf st i
        { count := 1, capacity := newCap,
          data := padTo ((st.bufs i).data.take newCap) newCap }) := by
  simp [heapRealloc, Nat.not_lt.mpr h]

/-! Shapes of `asBytes` on each variant. -/

theorem asBytes_inline (d : List Nat) (st : Store) : (Repr.inline d).asBytes st = d := rfl

theorem asBytes_heap (i l : Nat) (st : Store) :
    (Repr.heap i l).asBytes st = (st.bufs i).data.take l := rfl

theorem asBytes_static (d : List Nat) (l : Nat) (st : Store) :
    (Repr.static d l).asBytes st = d.take l := rfl

theorem capacity_heap (i l : Nat) (st : Store) :
    (Repr.heap i l).capacity st = (st.bufs i).capacity := rfl

theorem capacity_inline (d : List Nat) (st : Store) :
    (Repr.inline d).capacity st = MAX_INLINE_SIZE := rfl

theorem capacity_static (d : List Nat) (l : Nat) (st : Store) :
    (Repr.static d l).capacity st = l := rfl

theorem asBytes_length (r : Repr) (st : Store) (h : WF r st) :
    (r.asBytes st).length = r.len := by
  cases r with
  | inline d => rfl
  | heap i l =>
    obtain ⟨-, -, hcap, hdata, -, -⟩ := h
    simp [Repr.asBytes, Repr.len]; omega
  | static d l =>
    obtain ⟨hl, -⟩ := h
    simp [Repr.asBytes, Repr.len]; omega

end LeanStr

namespace LeanStr

/-- C2. Construction round-trip: for every UTF-8 byte sequence `s` of
representable length, building a `Repr` from `s` (via `Repr::from_str` or
`Repr::from_static_str`) succeeds and reading it back with `as_bytes` gives
exactly `s`, with `len()` equal to `s.len()`. -/
theorem construction_roundtrip (s : List Nat) (st : Store)
    (hs : s.length ≤ TEXT_SIZE_MAX) (hv : ValidUtf8 s) :
    (∃ r st2, Repr.fromStr s st = .ok (r, st2) ∧ r.asBytes st2 = s ∧ r.len = s.length) ∧
    (∃ r st2, Repr.fromStaticStr s st = .ok (r, st2) ∧ r.asBytes st2 = s ∧
      r.len = s.length) := by
  constructor
  · by_cases hlen : s.length ≤ MAX_INLINE_SIZE
    · exact ⟨.inline s, st, by simp [Repr.fromStr, hlen], rfl, rfl⟩
    · obtain ⟨st2, h1, h2, h3, h4⟩ := heapNew_spec s st hs
      refine ⟨.heap st.next s.length, st2, ?_, ?_, rfl⟩
      · simp [Repr.fromStr, hlen, h1, Except.map]
      · rw [asBytes_heap, h3]
        exact padTo_take s s.length
  · by_cases hlen : s.length ≤ MAX_INLINE_SIZE
    · exact ⟨.inline s, st, by simp [Repr.fromStaticStr, hlen], rfl, rfl⟩
    · refine ⟨.static s s.length, st, ?_, ?_, rfl⟩
      · simp [Repr.fromStaticStr, hlen, Nat.not_lt.mpr hs]
      · rw [asBytes_static]
        exact List.take_length s

/-- Witness for `construction_roundtrip` at the one-byte string `[97]`. -/
theorem construction_roundtrip_witness :
    (∃ r st2, Repr.fromStr [97] emptyStore = .ok (r, st2) ∧ r.asBytes st2 = [97] ∧
      r.len = [97].length) ∧
    (∃ r st2, Repr.fromStaticStr [97] emptyStore = .ok (r, st2) ∧ r.asBytes st2 = [97] ∧
      r.len = [97].length) :=
  construction_roundtrip [97] emptyStore (by decide) ⟨[97], by decide, by decide⟩

/-- C6. Variant classification after construction: inline-sized inputs never
heap-allocate (for either constructor); larger inputs via `Repr::from_str`
heap-allocate; larger inputs via `Repr::from_static_str` stay non-heap with
`capacity == len`. -/
theorem variant_classification (s : List Nat) (st : Store)
    (hs : s.length ≤ TEXT_SIZE_MAX) :
    (∀ r st2, Repr.fromStr s st = .ok (r, st2) → s.length ≤ MAX_INLINE_SIZE →
      r.isHeapBuffer = false) ∧
    (∀ r st2, Repr.fromStaticStr s st = .ok (r, st2) → s.length ≤ MAX_INLINE_SIZE →
      r.isHeapBuffer = false) ∧
    (∀ r st2, Repr.fromStr s st = .ok (r, st2) → MAX_INLINE_SIZE < s.length →
      r.isHeapBuffer = true) ∧
    (∀ r st2, Repr.fromStaticStr s st = .ok (r, st2) → MAX_INLINE_SIZE < s.length →
      r.isHeapBuffer = false ∧ r.capacity st2 = r.len ∧ r.len = s.length) := by
  refine ⟨?_, ?_, ?_, ?_⟩
  · intro r st2 hok hlen
    simp [Repr.fromStr, hlen] at hok
    rw [← hok.1]
    rfl
  · intro r st2 hok hlen
    simp [Repr.fromStaticStr, hlen] at hok
    rw [← hok.1]
    rfl
  · intro r st2 hok hlen
    obtain ⟨stN, h1, -, -, -⟩ := heapNew_spec s st hs
    simp [Repr.fromStr, Nat.not_le.mpr hlen, h1, Except.map] at hok
    rw [← hok.1]
    rfl
  · intro r st2 hok hlen
    simp [Repr.fromStaticStr, Nat.not_le.mpr hlen, Nat.not_lt.mpr hs] at hok
    rw [← hok.1]
    exact ⟨rfl, rfl, rfl⟩

/-- Witness for `variant_classification` at a 17-byte string. -/
theorem variant_classification_witness :
    (∀ r st2, Repr.fromStr (List.replicate 17 97) emptyStore = .ok (r, st2) →
      (List.replicate 17 97).length ≤ MAX_INLINE_SIZE → r.isHeapBuffer = false) ∧
    (∀ r st2, Repr.fromStaticStr (List.replicate 17 97) emptyStore = .ok (r, st2) →
      (List.replicate 17 97).length ≤ MAX_INLINE_SIZE → r.isHeapBuffer = false) ∧
    (∀ r st2, Repr.fromStr (List.replicate 17 97) emptyStore = .ok (r, st2) →
      MAX_INLINE_SIZE < (List.replicate 17 97).length → r.isHeapBuffer = true) ∧
    (∀ r st2, Repr.fromStaticStr (List.replicate 17 97) emptyStore = .ok (r, st2) →
      MAX_INLINE_SIZE < (List.replicate 17 97).length →
      r.isHeapBuffer = false ∧ r.capacity st2 = r.len ∧
      r.len = (List.replicate 17 97).length) :=
  variant_classification (List.replicate 17 97) emptyStore (by decide)

/-- C9. Pop on an empty string returns `Ok(None)`, cannot fail, and leaves the
`Repr` and the store completely unchanged (same variant, same capacity, no
reference-count change). -/
theorem pop_empty (r : Repr) (st : Store) (h : r.len = 0) :
    r.pop st = some (.ok (none, r, st)) := by
  have hbytes : r.asBytes st = [] := by
    cases r with
    | inline d =>
      rw [asBytes_inline]
      exact List.length_eq_zero.mp h
    | heap i l =>
      have hl : l = 0 := h
      simp [Repr.asBytes, hl]
    | static d l =>
      have hl : l = 0 := h
      simp [Repr.asBytes, hl]
  simp [Repr.pop, hbytes, decodeLast, decodeLastRev]

/-- Witness for `pop_empty` on the empty inline value. -/
theorem pop_empty_witness :
    (Repr.inline []).pop emptyStore = some (.ok (none, .inline [], emptyStore)) :=
  pop_empty (.inline []) emptyStore rfl

/-- C10. Clear on a Static-backed value keeps the Static variant, rewriting the
length field in place (since `is_unique` is true for Static): the result has
`len() == 0` and `capacity() == 0`, and is neither heap-allocated nor Inline. -/
theorem clear_static (d : List Nat) (l : Nat) (st : Store) :
    clearLS (.static d l) st = some (.static d 0, st) ∧
    (Repr.static d 0).len = 0 ∧ (Repr.static d 0).capacity st = 0 ∧
    (Repr.static d 0).isHeapBuffer = false ∧ (Repr.static d 0).isStaticBuffer = true := by
  refine ⟨?_, rfl, rfl, rfl, rfl⟩
  simp [clearLS, Repr.isUnique, Repr.setLen]

/-- C7. Clear semantics: after `clear`, `len() == 0`; a uniquely owned Heap
value stays heap-allocated with its capacity (and store) untouched; a shared
Heap value becomes the empty Inline value with capacity `MAX_INLINE_SIZE`. -/
theorem clear_semantics (r : Repr) (st : Store) (hWF : WF r st) :
    ∃ r2 st2, clearLS r st = some (r2, st2) ∧ r2.len = 0 ∧
      (∀ i l, r = .heap i l → (st.bufs i).count = 1 →
        r2 = .heap i 0 ∧ st2 = st ∧ r2.isHeapBuffer = true ∧
          r2.capacity st2 = r.capacity st) ∧
      (∀ i l, r = .heap i l → 2 ≤ (st.bufs i).count →
        r2 = .inline [] ∧ r2.isHeapBuffer = false ∧
          r2.capacity st2 = MAX_INLINE_SIZE) := by
  cases r with
  | inline d =>
    refine ⟨.inline [], st, ?_, rfl, ?_, ?_⟩
    · simp [clearLS, Repr.isUnique, Repr.setLen, MAX_INLINE_SIZE, USIZE_SIZE]
    · intro i l h
      exact Repr.noConfusion h
    · intro i l h
      exact Repr.noConfusion h
  | static d l =>
    refine ⟨.static d 0, st, ?_, rfl, ?_, ?_⟩
    · simp [clearLS, Repr.isUnique, Repr.setLen]
    · intro i l h
      exact Repr.noConfusion h
    · intro i l h
      exact Repr.noConfusion h
  | heap i l =>
    by_cases hc : (st.bufs i).count = 1
    · refine ⟨.heap i 0, st, ?_, rfl, ?_, ?_⟩
      · simp [clearLS, Repr.isUnique, hc, Repr.setLen, TEXT_SIZE_MAX]
      · intro i2 l2 heq hcount
        cases heq
        exact ⟨rfl, rfl, rfl, rfl⟩
      · intro i2 l2 heq hcount
        cases heq
        omega
    · refine ⟨.inline [], decRef st i, ?_, rfl, ?_, ?_⟩
      · simp [clearLS, Repr.isUnique, hc, Repr.replaceInner]
      · intro i2 l2 heq hcount
        cases heq
        exact absurd hcount hc
      · intro i2 l2 heq hcount
        cases heq
        exact ⟨rfl, rfl, rfl⟩

/-- Witness for `clear_semantics` on a small inline value. -/
theorem clear_semantics_witness :
    ∃ r2 st2, clearLS (.inline [97]) emptyStore = some (r2, st2) ∧ r2.len = 0 ∧
      (∀ i l, Repr.inline [97] = .heap i l → (emptyStore.bufs i).count = 1 →
        r2 = .heap i 0 ∧ st2 = emptyStore ∧ r2.isHeapBuffer = true ∧
          r2.capacity st2 = (Repr.inline [97]).capacity emptyStore) ∧
      (∀ i l, Repr.inline [97] = .heap i l → 2 ≤ (emptyStore.bufs i).count →
        r2 = .inline [] ∧ r2.isHeapBuffer = false ∧
          r2.capacity st2 = MAX_INLINE_SIZE) :=
  clear_semantics (.inline [97]) emptyStore (by decide)

end LeanStr

namespace LeanStr

theorem length_take_of_le {l : List Nat} {n : Nat} (h : n ≤ l.length) :
    (l.take n).length = n := by simp; omega

theorem avoids_inline {d : List Nat} {st : Store} {j : Nat} : Avoids (.inline d) st j :=
  fun _ h => Repr.noConfusion h

theorem avoids_static {d : List Nat} {l : Nat} {st : Store} {j : Nat} :
    Avoids (.static d l) st j :=
  fun _ h => Repr.noConfusion h

theorem avoids_heap_ne {i l : Nat} {st : Store} {j : Nat} (h : i ≠ j) :
    Avoids (.heap i l) st j := by
  intro l2 heq
  injection heq with h1 h2
  exact absurd h1 h

theorem sat_le_alloc {n : Nat} (h : satAdd HEADER_SIZE n ≤ ALLOC_LIMIT) :
    HEADER_SIZE + n ≤ ALLOC_LIMIT := by
  unfold satAdd HEADER_SIZE ALLOC_LIMIT USIZE_SIZE USIZE_MAX at *
  omega

theorem reserve_spec (r : Repr) (k : Nat) (st : Store) (hWF : WF r st)
    (r2 : Repr) (st2 : Store) (hok : r.reserve k st = .ok (r2, st2)) :
    WF r2 st2 ∧ r2.asBytes st2 = r.asBytes st ∧ r2.len = r.len ∧
    r2.isStaticBuffer = false ∧ UniqueIfHeap r2 st2 ∧
    r.len + k ≤ r2.capacity st2 ∧
    (r.isUnique st = true → r.capacity st ≤ r2.capacity st2) ∧
    st.next ≤ st2.next ∧
    (∀ j, j < st.next → Avoids r st j →
      (st2.bufs j).data = (st.bufs j).data ∧ Avoids r2 st2 j) := by
  cases r with
  | heap i l =>
    obtain ⟨hi, hcount, hlcap, hdata, hltext, hal⟩ := hWF
    rw [Repr.reserve] at hok
    simp only [Repr.len] at hok ⊢
    split at hok
    · exact absurd hok (by simp)
    next hov =>
    split at hok
    next hc =>
      split at hok
      next hcap =>
        simp only [Except.ok.injEq, Prod.mk.injEq] at hok
        obtain ⟨rfl, rfl⟩ := hok
        refine ⟨⟨hi, hcount, hlcap, hdata, hltext, hal⟩, rfl, rfl, rfl, ?_, hcap, fun _ => le_refl _, le_refl _, fun j hj hav => ⟨rfl, hav⟩⟩
        intro i2 l2 heq
        injection heq with h1 h2
        subst h1
        exact hc
      next hcap =>
        rw [heapRealloc] at hok
        split at hok
        · exact absurd hok (by simp [Except.map])
        next hre =>
        simp only [Except.map, Except.ok.injEq, Prod.mk.injEq] at hok
        obtain ⟨rfl, rfl⟩ := hok
        have hamA : l + k ≤ amortizedGrowth l k := le_amortizedGrowth l k (Nat.not_lt.mp hov)
        have htk : ((st.bufs i).data.take (amortizedGrowth l k)).length ≤ amortizedGrowth l k := by
          simp
        refine ⟨⟨hi, ?_, ?_, ?_, hltext, ?_⟩, ?_, rfl, rfl, ?_, ?_, ?_, le_refl _, ?_⟩
        · simp [setBuf_bufs_self]
        · simp [setBuf_bufs_self]
          omega
        · simp only [setBuf_bufs_self]
          exact padTo_length _ _ htk
        · simp only [setBuf_bufs_self]
          exact sat_le_alloc (Nat.not_lt.mp hre)
        · -- asBytes: take l (padTo (take A data) A) = take l data
          simp only [Repr.asBytes, setBuf_bufs_self]
          rw [padTo_take_of_le]
          · rw [List.take_take]
            congr 1
            omega
          · simp
            omega
        · intro i2 l2 heq
          injection heq with h1 h2
          subst h1
          simp [setBuf_bufs_self]
        · simp [Repr.capacity, setBuf_bufs_self]
          omega
        · intro _
          simp [Repr.capacity, setBuf_bufs_self]
          omega
        · intro j hj hav
          have hji : j ≠ i := by
            intro heq
            subst heq
            exact absurd (hav l rfl) (by omega)
          constructor
          · rw [setBuf_bufs_ne _ _ _ _ hji]
          · exact avoids_heap_ne (fun h => hji h.symm)
    next hc =>
      rw [heapWithAdditional] at hok
      have htl : ((st.bufs i).data.take l).length = l := by
        rw [length_take_of_le]; omega
      split at hok
      next hbig => rw [htl] at hbig; omega
      next hbig =>
      rw [allocBuf] at hok
      split at hok
      · exact absurd hok (by simp [Except.map])
      next halloc =>
      simp only [Except.map, Except.ok.injEq, Prod.mk.injEq, decRef_next] at hok
      obtain ⟨rfl, rfl⟩ := hok
      rw [htl] at halloc ⊢
      have hamA : l + k ≤ amortizedGrowth l k := le_amortizedGrowth l k (Nat.not_lt.mp hov)
      have hnewbuf :
          (Store.bufs
            { bufs := fun j =>
                if j = st.next then
                  { count := 1, capacity := amortizedGrowth ((st.bufs i).data.take l).length k,
                    data := padTo ((st.bufs i).data.take l)
                      (amortizedGrowth ((st.bufs i).data.take l).length k) }
                else (decRef st i).bufs j,
              next := st.next + 1 }) st.next =
          { count := 1, capacity := amortizedGrowth ((st.bufs i).data.take l).length k,
            data := padTo ((st.bufs i).data.take l)
              (amortizedGrowth ((st.bufs i).data.take l).length k) } := by
        simp
      rw [htl] at hnewbuf
      refine ⟨⟨?_, ?_, ?_, ?_, hltext, ?_⟩, ?_, rfl, rfl, ?_, ?_, ?_, ?_, ?_⟩
      · simp
      · rw [hnewbuf]
      · rw [hnewbuf]
        show l ≤ amortizedGrowth l k
        omega
      · rw [hnewbuf]
        exact padTo_length _ _ (htl.le.trans (by omega))
      · rw [hnewbuf]
        exact Nat.not_lt.mp halloc
      · rw [asBytes_heap, hnewbuf, asBytes_heap]
        rw [padTo_take_of_le _ _ _ htl.ge]
        rw [List.take_take, min_self]
      · intro i2 l2 heq
        injection heq with h1 h2
        subst h1
        rw [hnewbuf]
      · rw [Repr.capacity, hnewbuf]
        exact hamA
      · intro hu
        rw [Repr.isUnique] at hu
        exact absurd (by simpa using hu) hc
      · simp
      · intro j hj hav
        have hne : j ≠ st.next := by omega
        constructor
        · show (Store.bufs _ j).data = _
          simp only [hne, if_false, Store.bufs]
          exact decRef_data st i j
        · exact avoids_heap_ne (fun h => hne h.symm)
  | static d l =>
    obtain ⟨hld, hltext⟩ := hWF
    rw [Repr.reserve] at hok
    simp only [Repr.len] at hok ⊢
    split at hok
    · exact absurd hok (by simp)
    next hov =>
    split at hok
    next hsmall =>
      simp only [Except.ok.injEq, Prod.mk.injEq] at hok
      obtain ⟨rfl, rfl⟩ := hok
      refine ⟨?_, rfl, ?_, rfl, ?_, hsmall, ?_, le_refl _, fun j hj hav => ⟨rfl, avoids_inline⟩⟩
      · show (d.take l).length ≤ MAX_INLINE_SIZE
        simp
        omega
      · show (d.take l).length = l
        simp
        omega
      · intro i2 l2 heq
        exact Repr.noConfusion heq
      · intro _
        show l ≤ MAX_INLINE_SIZE
        omega
    next hsmall =>
      rw [heapWithAdditional] at hok
      have htl : (d.take l).length = l := by
        rw [length_take_of_le hld]
      split at hok
      next hbig =>
        rw [htl] at hbig
        omega
      next hbig =>
      rw [allocBuf] at hok
      split at hok
      · exact absurd hok (by simp [Except.map])
      next halloc =>
      simp only [Except.map, Except.ok.injEq, Prod.mk.injEq] at hok
      obtain ⟨rfl, rfl⟩ := hok
      rw [htl] at halloc ⊢
      have hamA : l + k ≤ amortizedGrowth l k := le_amortizedGrowth l k (Nat.not_lt.mp hov)
      have hnewbuf :
          (Store.bufs
            { bufs := fun j =>
                if j = st.next then
                  { count := 1, capacity := amortizedGrowth (d.take l).length k,
                    data := padTo (d.take l) (amortizedGrowth (d.take l).length k) }
                else st.bufs j,
              next := st.next + 1 }) st.next =
          { count := 1, capacity := amortizedGrowth (d.take l).length k,
            data := padTo (d.take l) (amortizedGrowth (d.take l).length k) } := by
        simp
      rw [htl] at hnewbuf
      refine ⟨⟨?_, ?_, ?_, ?_, hltext, ?_⟩, ?_, rfl, rfl, ?_, ?_, ?_, ?_, ?_⟩
      · simp
      · rw [hnewbuf]
      · rw [hnewbuf]
        show l ≤ amortizedGrowth l k
        omega
      · rw [hnewbuf]
        exact padTo_length _ _ (htl.le.trans (by omega))
      · rw [hnewbuf]
        exact Nat.not_lt.mp halloc
      · rw [asBytes_heap, hnewbuf, asBytes_static]
        rw [padTo_take_of_le _ _ _ htl.ge]
        rw [List.take_take, min_self]
      · intro i2 l2 heq
        injection heq with h1 h2
        subst h1
        rw [hnewbuf]
      · rw [Repr.capacity, hnewbuf]
        exact hamA
      · intro _
        rw [Repr.capacity, hnewbuf]
        show l ≤ amortizedGrowth l k
        omega
      · simp
      · intro j hj hav
        have hne : j ≠ st.next := by omega
        refine ⟨?_, avoids_heap_ne (fun h => hne h.symm)⟩
        show (Store.bufs _ j).data = _
        simp only [hne, if_false, Store.bufs]
  | inline d =>
    have hd : d.length ≤ MAX_INLINE_SIZE := hWF
    rw [Repr.reserve] at hok
    simp only [Repr.len] at hok ⊢
    split at hok
    · exact absurd hok (by simp)
    next hov =>
    split at hok
    next hsmall =>
      simp only [Except.ok.injEq, Prod.mk.injEq] at hok
      obtain ⟨rfl, rfl⟩ := hok
      refine ⟨hd, rfl, rfl, rfl, ?_, hsmall, fun _ => le_refl _, le_refl _,
        fun j hj hav => ⟨rfl, avoids_inline⟩⟩
      intro i2 l2 heq
      exact Repr.noConfusion heq
    next hsmall =>
      rw [heapWithAdditional] at hok
      split at hok
      next hbig =>
        unfold MAX_INLINE_SIZE USIZE_SIZE TEXT_SIZE_MAX at *
        omega
      next hbig =>
      rw [allocBuf] at hok
      split at hok
      · exact absurd hok (by simp [Except.map])
      next halloc =>
      simp only [Except.map, Except.ok.injEq, Prod.mk.injEq] at hok
      obtain ⟨rfl, rfl⟩ := hok
      have hamA : d.length + k ≤ amortizedGrowth d.length k :=
        le_amortizedGrowth d.length k (Nat.not_lt.mp hov)
      have hnewbuf :
          (Store.bufs
            { bufs := fun j =>
                if j = st.next then
                  { count := 1, capacity := amortizedGrowth d.length k,
                    data := padTo d (amortizedGrowth d.length k) }
                else st.bufs j,
              next := st.next + 1 }) st.next =
          { count := 1, capacity := amortizedGrowth d.length k,
            data := padTo d (amortizedGrowth d.length k) } := by
        simp
      refine ⟨⟨?_, ?_, ?_, ?_, ?_, ?_⟩, ?_, rfl, rfl, ?_, ?_, ?_, ?_, ?_⟩
      · simp
      · rw [hnewbuf]
      · rw [hnewbuf]
        show d.length ≤ amortizedGrowth d.length k
        omega
      · rw [hnewbuf]
        exact padTo_length _ _ (by omega)
      · unfold MAX_INLINE_SIZE USIZE_SIZE TEXT_SIZE_MAX at *
        omega
      · rw [hnewbuf]
        exact Nat.not_lt.mp halloc
      · rw [asBytes_heap, hnewbuf, asBytes_inline]
        exact padTo_take d _
      · intro i2 l2 heq
        injection heq with h1 h2
        subst h1
        rw [hnewbuf]
      · rw [Repr.capacity, hnewbuf]
        exact hamA
      · intro _
        rw [Repr.capacity, hnewbuf]
        show MAX_INLINE_SIZE ≤ amortizedGrowth d.length k
        omega
      · simp
      · intro j hj hav
        have hne : j ≠ st.next := by omega
        refine ⟨?_, avoids_heap_ne (fun h => hne h.symm)⟩
        show (Store.bufs _ j).data = _
        simp only [hne, if_false, Store.bufs]

end LeanStr

namespace LeanStr

/-- C4 (counterexample). A 17-byte string is built (Heap, capacity 17),
`reserve(100)` grows it in place to capacity 117, the value is cloned (so the
buffer is shared), and then `reserve(0)` on the original allocates a fresh
buffer of capacity `amortized_growth(17, 0) = 25 < 117`: the claim that
`reserve` never decreases `capacity()` is false. -/
theorem reserve_capacity_counterexample :
    ((Repr.fromStr (List.replicate 17 97) emptyStore).toOption.bind fun p1 =>
      (Repr.reserve p1.1 100 p1.2).toOption.bind fun p2 =>
        (Repr.reserve p2.1 0 (p2.1.makeShallowClone p2.2).2).toOption.map fun p4 =>
          decide (p4.1.capacity p4.2 < p2.1.capacity (p2.1.makeShallowClone p2.2).2)) =
      some true := by
  rfl

/-- C4 (amended). After a successful `reserve(k)` the length is unchanged and
`capacity() ≥ len() + k`; the capacity never decreases provided the `Repr` is
unique (an Inline, a Static, or a sole Heap owner).  A shared Heap value may
end with a smaller (amortized) capacity. -/
theorem reserve_capacity_postcondition (r : Repr) (k : Nat) (st : Store)
    (hWF : WF r st) :
    ∀ r2 st2, r.reserve k st = .ok (r2, st2) →
      r2.len = r.len ∧ r.len + k ≤ r2.capacity st2 ∧
      (r.isUnique st = true → r.capacity st ≤ r2.capacity st2) := by
  intro r2 st2 hok
  obtain ⟨-, -, hlen, -, -, hcap, hmono, -, -⟩ := reserve_spec r k st hWF r2 st2 hok
  exact ⟨hlen, hcap, hmono⟩

/-- Witness for `reserve_capacity_postcondition` on the empty inline value. -/
theorem reserve_capacity_postcondition_witness :
    (Repr.inline []).len = (Repr.inline []).len ∧
    (Repr.inline []).len + 3 ≤ (Repr.inline []).capacity emptyStore ∧
    ((Repr.inline []).isUnique emptyStore = true →
      (Repr.inline []).capacity emptyStore ≤ (Repr.inline []).capacity emptyStore) :=
  reserve_capacity_postcondition (.inline []) 3 emptyStore (by decide) (.inline [])
    emptyStore (by rfl)

/-- Specification of `Repr.shrinkTo` on a well-formed value: the content and
length are unchanged, the capacity ends at least at
`min(old capacity, max(len, k))` (and reaches `max(len, k)` for a Heap value
unless the request exceeds the old capacity), allocation ids only grow, and no
shared or foreign buffer is modified. -/
theorem shrinkTo_spec (r : Repr) (k : Nat) (st : Store) (hWF : WF r st)
    (r2 : Repr) (st2 : Store) (hok : r.shrinkTo k st = .ok (r2, st2)) :
    WF r2 st2 ∧ r2.asBytes st2 = r.asBytes st ∧ r2.len = r.len ∧
    min (r.capacity st) (max r.len k) ≤ r2.capacity st2 ∧
    (r.isHeapBuffer = true →
      max r.len k ≤ r2.capacity st2 ∨ r.capacity st ≤ max r.len k) ∧
    st.next ≤ st2.next ∧
    (∀ j, j < st.next → Avoids r st j →
      (st2.bufs j).data = (st.bufs j).data ∧ Avoids r2 st2 j) := by
  cases r with
  | inline d =>
    have hred : (Repr.inline d).shrinkTo k st = .ok (.inline d, st) := rfl
    rw [hred] at hok
    simp only [Except.ok.injEq, Prod.mk.injEq] at hok
    obtain ⟨rfl, rfl⟩ := hok
    exact ⟨hWF, rfl, rfl, min_le_left _ _, fun h => Bool.noConfusion h, le_refl _,
      fun j hj hav => ⟨rfl, hav⟩⟩
  | static d l =>
    have hred : (Repr.static d l).shrinkTo k st = .ok (.static d l, st) := rfl
    rw [hred] at hok
    simp only [Except.ok.injEq, Prod.mk.injEq] at hok
    obtain ⟨rfl, rfl⟩ := hok
    exact ⟨hWF, rfl, rfl, min_le_left _ _, fun h => Bool.noConfusion h, le_refl _,
      fun j hj hav => ⟨rfl, hav⟩⟩
  | heap i l =>
    obtain ⟨hi, hcount, hlcap, hdata, hltext, hal⟩ := hWF
    rw [Repr.shrinkTo] at hok
    simp only [Repr.len] at hok ⊢
    split at hok
    next hsmall =>
      simp only [Except.ok.injEq, Prod.mk.injEq] at hok
      obtain ⟨rfl, rfl⟩ := hok
      refine ⟨?_, rfl, ?_, ?_, ?_, ?_, ?_⟩
      · show (List.take l (st.bufs i).data).length ≤ MAX_INLINE_SIZE
        simp
        omega
      · show (List.take l (st.bufs i).data).length = l
        simp
        omega
      · show _ ≤ MAX_INLINE_SIZE
        omega
      · intro _
        left
        show max l k ≤ MAX_INLINE_SIZE
        exact hsmall
      · simp [decRef_next]
      · intro j hj hav
        exact ⟨decRef_data st i j, avoids_inline⟩
    next hsmall =>
    split at hok
    next hbigcap =>
      simp only [Except.ok.injEq, Prod.mk.injEq] at hok
      obtain ⟨rfl, rfl⟩ := hok
      exact ⟨⟨hi, hcount, hlcap, hdata, hltext, hal⟩, rfl, rfl, min_le_left _ _,
        fun _ => Or.inr hbigcap, le_refl _, fun j hj hav => ⟨rfl, hav⟩⟩
    next hbigcap =>
    split at hok
    next hc =>
      rw [heapRealloc] at hok
      split at hok
      · exact absurd hok (by simp [Except.map])
      next hre =>
      simp only [Except.map, Except.ok.injEq, Prod.mk.injEq] at hok
      obtain ⟨rfl, rfl⟩ := hok
      refine ⟨⟨hi, ?_, ?_, ?_, hltext, ?_⟩, ?_, rfl, ?_, ?_, le_refl _, ?_⟩
      · rw [setBuf_bufs_self]
      · rw [setBuf_bufs_self]
        show l ≤ max l k
        exact le_max_left _ _
      · rw [setBuf_bufs_self]
        exact padTo_length _ _ (by simp; omega)
      · rw [setBuf_bufs_self]
        exact sat_le_alloc (Nat.not_lt.mp hre)
      · rw [asBytes_heap, setBuf_bufs_self]
        show (padTo ((st.bufs i).data.take (max l k)) (max l k)).take l = _
        rw [padTo_take_of_le]
        · rw [List.take_take]
          congr 1
          omega
        · simp
          omega
      · simp only [capacity_heap, setBuf_bufs_self]
        exact min_le_right _ _
      · intro _
        left
        simp only [capacity_heap, setBuf_bufs_self]
        exact le_refl _
      · intro j hj hav
        have hji : j ≠ i := by
          intro heq
          subst heq
          exact absurd (hav l rfl) (by omega)
        exact ⟨by rw [setBuf_bufs_ne _ _ _ _ hji], avoids_heap_ne (fun h => hji h.symm)⟩
    next hc =>
      rw [heapWithAdditional] at hok
      have htl : ((st.bufs i).data.take l).length = l := by
        rw [length_take_of_le]
        omega
      split at hok
      next hbig =>
        rw [htl] at hbig
        omega
      next hbig =>
      rw [allocBuf] at hok
      split at hok
      · exact absurd hok (by simp [Except.map])
      next halloc =>
      simp only [Except.map, Except.ok.injEq, Prod.mk.injEq] at hok
      obtain ⟨rfl, rfl⟩ := hok
      rw [htl] at halloc ⊢
      have husize : USIZE_MAX = 2 ^ 64 - 1 := rfl
      have hallim : ALLOC_LIMIT = 2 ^ 63 - 8 := rfl
      have hhdr : HEADER_SIZE = 16 := rfl
      have hcapu : (st.bufs i).capacity ≤ USIZE_MAX := by omega
      have hamA : max l k ≤ amortizedGrowth l (max l k - l) := by
        have h1 := le_amortizedGrowth l (max l k - l) (by omega)
        omega
      have hnewbuf :
          (Store.bufs
            { bufs := fun j =>
                if j = st.next then
                  { count := 1,
                    capacity := amortizedGrowth ((st.bufs i).data.take l).length (max l k - l),
                    data := padTo ((st.bufs i).data.take l)
                      (amortizedGrowth ((st.bufs i).data.take l).length (max l k - l)) }
                else st.bufs j,
              next := st.next + 1 }) st.next =
          { count := 1,
            capacity := amortizedGrowth ((st.bufs i).data.take l).length (max l k - l),
            data := padTo ((st.bufs i).data.take l)
              (amortizedGrowth ((st.bufs i).data.take l).length (max l k - l)) } := by
        simp
      rw [htl] at hnewbuf
      refine ⟨⟨?_, ?_, ?_, ?_, hltext, ?_⟩, ?_, rfl, ?_, ?_, ?_, ?_⟩
      · simp
      · rw [hnewbuf]
      · rw [hnewbuf]
        show l ≤ amortizedGrowth l (max l k - l)
        omega
      · rw [hnewbuf]
        exact padTo_length _ _ (htl.le.trans (by omega))
      · rw [hnewbuf]
        exact Nat.not_lt.mp halloc
      · rw [asBytes_heap, hnewbuf, asBytes_heap]
        rw [padTo_take_of_le _ _ _ htl.ge]
        rw [List.take_take, min_self]
      · simp only [capacity_heap, if_true]
        omega
      · intro _
        left
        simp only [capacity_heap, if_true]
        omega
      · simp
      · intro j hj hav
        have hne : j ≠ st.next := by omega
        refine ⟨?_, avoids_heap_ne (fun h => hne h.symm)⟩
        show (Store.bufs _ j).data = _
        simp only [hne, if_false, Store.bufs]

/-- C5 (counterexample). On an Inline value (here the empty string),
`shrink_to(17)` is a no-op with capacity `MAX_INLINE_SIZE = 16`, so the claimed
postcondition `capacity() ≥ max(len(), 17)` fails. -/
theorem shrinkTo_counterexample :
    Repr.shrinkTo (.inline []) 17 emptyStore = .ok (.inline [], emptyStore) ∧
    (Repr.inline []).capacity emptyStore < max ((Repr.inline []).len) 17 :=
  ⟨rfl, by decide⟩

/-- C5 (amended). After a successful `shrink_to(k)` the content and length are
unchanged and `capacity() ≥ min(old capacity, max(len, k))`; for a Heap value
the full bound `capacity() ≥ max(len, k)` additionally holds unless `max(len,
k)` already exceeded the old capacity (`shrink_to` never grows a buffer), and
for Inline/Static values the call is a no-op. -/
theorem shrinkTo_postcondition (r : Repr) (k : Nat) (st : Store) (hWF : WF r st) :
    ∀ r2 st2, r.shrinkTo k st = .ok (r2, st2) →
      r2.asBytes st2 = r.asBytes st ∧ r2.len = r.len ∧
      min (r.capacity st) (max r.len k) ≤ r2.capacity st2 ∧
      (r.isHeapBuffer = true →
        max r.len k ≤ r2.capacity st2 ∨ r.capacity st ≤ max r.len k) ∧
      (r.isHeapBuffer = false → r2 = r ∧ st2 = st) := by
  intro r2 st2 hok
  obtain ⟨-, hbytes, hlen, hcap, hheap, -, -⟩ := shrinkTo_spec r k st hWF r2 st2 hok
  refine ⟨hbytes, hlen, hcap, hheap, ?_⟩
  intro hnh
  cases r with
  | inline d =>
    have hred : (Repr.inline d).shrinkTo k st = .ok (.inline d, st) := rfl
    rw [hred] at hok
    simp only [Except.ok.injEq, Prod.mk.injEq] at hok
    exact ⟨hok.1.symm, hok.2.symm⟩
  | static d l =>
    have hred : (Repr.static d l).shrinkTo k st = .ok (.static d l, st) := rfl
    rw [hred] at hok
    simp only [Except.ok.injEq, Prod.mk.injEq] at hok
    exact ⟨hok.1.symm, hok.2.symm⟩
  | heap i l => exact Bool.noConfusion hnh

/-- Witness for `shrinkTo_postcondition` on a small inline value. -/
theorem shrinkTo_postcondition_witness :
    (Repr.inline [97]).asBytes emptyStore = (Repr.inline [97]).asBytes emptyStore ∧
    (Repr.inline [97]).len = (Repr.inline [97]).len ∧
    min ((Repr.inline [97]).capacity emptyStore) (max (Repr.inline [97]).len 4) ≤
      (Repr.inline [97]).capacity emptyStore ∧
    ((Repr.inline [97]).isHeapBuffer = true →
      max (Repr.inline [97]).len 4 ≤ (Repr.inline [97]).capacity emptyStore ∨
        (Repr.inline [97]).capacity emptyStore ≤ max (Repr.inline [97]).len 4) ∧
    ((Repr.inline [97]).isHeapBuffer = false →
      Repr.inline [97] = .inline [97] ∧ emptyStore = emptyStore) :=
  shrinkTo_postcondition (.inline [97]) 4 emptyStore (by decide) (.inline [97])
    emptyStore (by rfl)

end LeanStr

namespace LeanStr

/-- Specification of the modifiability transition `Repr::ensure_modifiable`:
the result is never Static, a resulting Heap buffer is unique, content and
length are unchanged, and no shared or foreign buffer is modified. -/
theorem ensureModifiable_spec (r : Repr) (st : Store) (hWF : WF r st)
    (r2 : Repr) (st2 : Store) (hok : r.ensureModifiable st = .ok (r2, st2)) :
    WF r2 st2 ∧ r2.asBytes st2 = r.asBytes st ∧ r2.len = r.len ∧
    r2.isStaticBuffer = false ∧ UniqueIfHeap r2 st2 ∧ st.next ≤ st2.next ∧
    (∀ j, j < st.next → Avoids r st j →
      (st2.bufs j).data = (st.bufs j).data ∧ Avoids r2 st2 j) := by
  cases r with
  | inline d =>
    have hred : (Repr.inline d).ensureModifiable st = .ok (.inline d, st) := rfl
    rw [hred] at hok
    simp only [Except.ok.injEq, Prod.mk.injEq] at hok
    obtain ⟨rfl, rfl⟩ := hok
    exact ⟨hWF, rfl, rfl, rfl, fun i l h => Repr.noConfusion h, le_refl _,
      fun j hj hav => ⟨rfl, hav⟩⟩
  | heap i l =>
    obtain ⟨hi, hcount, hlcap, hdata, hltext, hal⟩ := hWF
    rw [Repr.ensureModifiable] at hok
    by_cases hc : (st.bufs i).count = 1
    · rw [if_pos hc] at hok
      simp only [Except.ok.injEq, Prod.mk.injEq] at hok
      obtain ⟨rfl, rfl⟩ := hok
      refine ⟨⟨hi, hcount, hlcap, hdata, hltext, hal⟩, rfl, rfl, rfl, ?_, le_refl _,
        fun j hj hav => ⟨rfl, hav⟩⟩
      intro i2 l2 heq
      injection heq with h1 h2
      subst h1
      exact hc
    · rw [if_neg hc] at hok
      have htl : ((st.bufs i).data.take l).length = l := by
        rw [length_take_of_le]
        omega
      obtain ⟨stN, h1, h2, h3, h4⟩ :=
        heapNew_spec ((st.bufs i).data.take l) (decRef st i) (htl.le.trans hltext)
      rw [h1] at hok
      simp only [Except.map, Except.ok.injEq, Prod.mk.injEq, decRef_next] at hok
      obtain ⟨rfl, rfl⟩ := hok
      rw [decRef_next] at h2 h3
      refine ⟨⟨?_, ?_, ?_, ?_, hltext, ?_⟩, ?_, rfl, rfl, ?_, by omega, ?_⟩
      · omega
      · rw [h3]
      · rw [h3]
        show l ≤ ((st.bufs i).data.take l).length
        omega
      · rw [h3]
        show (padTo _ _).length = ((st.bufs i).data.take l).length
        exact padTo_length _ _ (le_refl _)
      · rw [h3]
        show HEADER_SIZE + ((st.bufs i).data.take l).length ≤ ALLOC_LIMIT
        rw [htl]
        exact Nat.not_lt.mp (text_le_alloc hltext)
      · rw [asBytes_heap, h3, asBytes_heap]
        show (padTo ((st.bufs i).data.take l) _).take l = _
        rw [padTo_take_of_le _ _ _ htl.ge, List.take_take, min_self]
      · intro i2 l2 heq
        injection heq with hh1 hh2
        subst hh1
        rw [h3]
      · intro j hj hav
        have hne : j ≠ st.next := by omega
        rw [h4 j hne]
        exact ⟨decRef_data st i j, avoids_heap_ne fun h => hne h.symm⟩
  | static d l =>
    obtain ⟨hld, hltext⟩ := hWF
    rw [Repr.ensureModifiable] at hok
    have htl : (d.take l).length = l := length_take_of_le hld
    rw [Repr.fromStr] at hok
    by_cases hsmall : (d.take l).length ≤ MAX_INLINE_SIZE
    · rw [if_pos hsmall] at hok
      simp only [Except.ok.injEq, Prod.mk.injEq] at hok
      obtain ⟨rfl, rfl⟩ := hok
      refine ⟨hsmall, rfl, ?_, rfl, ?_, le_refl _, fun j hj hav => ⟨rfl, avoids_inline⟩⟩
      · exact htl
      · intro i2 l2 heq
        exact Repr.noConfusion heq
    · rw [if_neg hsmall] at hok
      obtain ⟨stN, h1, h2, h3, h4⟩ := heapNew_spec (d.take l) st (htl.le.trans hltext)
      rw [h1] at hok
      simp only [Except.map, Except.ok.injEq, Prod.mk.injEq] at hok
      obtain ⟨rfl, rfl⟩ := hok
      refine ⟨⟨?_, ?_, ?_, ?_, ?_, ?_⟩, ?_, ?_, rfl, ?_, by omega, ?_⟩
      · omega
      · rw [h3]
      · rw [h3]
      · rw [h3]
        exact padTo_length _ _ (le_refl _)
      · rw [htl]
        exact hltext
      · rw [h3]
        show HEADER_SIZE + (d.take l).length ≤ ALLOC_LIMIT
        rw [htl]
        exact Nat.not_lt.mp (text_le_alloc hltext)
      · rw [asBytes_heap, h3, asBytes_static]
        show (padTo (d.take l) _).take (d.take l).length = _
        rw [padTo_take]
      · exact htl
      · intro i2 l2 heq
        injection heq with hh1 hh2
        subst hh1
        rw [h3]
      · intro j hj hav
        have hne : j ≠ st.next := by omega
        rw [h4 j hne]
        exact ⟨rfl, avoids_heap_ne fun h => hne h.symm⟩

/-- Specification of the write-back step of a mutating operation (slice write
plus `set_len`): the target must not be Static and a Heap target must be
unique; afterwards the content is exactly the written bytes. -/
theorem writeContent_spec (r : Repr) (c : List Nat) (st : Store) (hWF : WF r st)
    (hu : UniqueIfHeap r st) (r2 : Repr) (st2 : Store)
    (hok : r.writeContent c st = some (r2, st2)) :
    WF r2 st2 ∧ r2.asBytes st2 = c ∧ r2.len = c.length ∧ st2.next = st.next ∧
    r2.isStaticBuffer = false ∧ UniqueIfHeap r2 st2 ∧
    (∀ j, Avoids r st j → (st2.bufs j).data = (st.bufs j).data ∧ Avoids r2 st2 j) := by
  cases r with
  | inline d =>
    rw [Repr.writeContent] at hok
    split at hok
    next hc =>
      simp only [Option.some.injEq, Prod.mk.injEq] at hok
      obtain ⟨rfl, rfl⟩ := hok
      exact ⟨hc, rfl, rfl, rfl, rfl, fun i l h => Repr.noConfusion h,
        fun j hav => ⟨rfl, avoids_inline⟩⟩
    next hc => exact absurd hok (by simp)
  | static d l =>
    rw [Repr.writeContent] at hok
    exact absurd hok (by simp)
  | heap i l =>
    obtain ⟨hi, hcount, hlcap, hdata, hltext, hal⟩ := hWF
    have hc1 : (st.bufs i).count = 1 := hu i l rfl
    rw [Repr.writeContent] at hok
    split at hok
    next hc =>
      obtain ⟨hccap, hctext⟩ := hc
      simp only [Option.some.injEq, Prod.mk.injEq] at hok
      obtain ⟨rfl, rfl⟩ := hok
      refine ⟨⟨hi, ?_, ?_, ?_, hctext, ?_⟩, ?_, rfl, rfl, rfl, ?_, ?_⟩
      · rw [setBuf_bufs_self]
        show 1 ≤ (st.bufs i).count
        omega
      · rw [setBuf_bufs_self]
        exact hccap
      · rw [setBuf_bufs_self]
        show (c ++ (st.bufs i).data.drop c.length).length = (st.bufs i).capacity
        rw [List.length_append, List.length_drop]
        omega
      · rw [setBuf_bufs_self]
        exact hal
      · rw [asBytes_heap, setBuf_bufs_self]
        show (c ++ (st.bufs i).data.drop c.length).take c.length = c
        exact List.take_left _ _
      · intro i2 l2 heq
        injection heq with hh1 hh2
        subst hh1
        rw [setBuf_bufs_self]
        exact hc1
      · intro j hav
        have hji : j ≠ i := by
          intro heq
          subst heq
          have := hav l rfl
          omega
        exact ⟨by rw [setBuf_bufs_ne _ _ _ _ hji], avoids_heap_ne fun h => hji h.symm⟩
    next hc => exact absurd hok (by simp)

end LeanStr

namespace LeanStr

/-- Specification of `Repr::push_str`: on success the content is the old
content followed by the pushed bytes, and no shared or foreign buffer is
modified. -/
theorem pushStr_spec (r : Repr) (s : List Nat) (st : Store) (hWF : WF r st)
    (r2 : Repr) (st2 : Store) (hok : r.pushStr s st = some (.ok (r2, st2))) :
    WF r2 st2 ∧ r2.asBytes st2 = r.asBytes st ++ s ∧ st.next ≤ st2.next ∧
    (∀ j, j < st.next → Avoids r st j →
      (st2.bufs j).data = (st.bufs j).data ∧ Avoids r2 st2 j) := by
  rw [Repr.pushStr] at hok
  by_cases hs : s.length = 0
  · rw [if_pos hs] at hok
    simp only [Option.some.injEq, Except.ok.injEq, Prod.mk.injEq] at hok
    obtain ⟨rfl, rfl⟩ := hok
    have hnil : s = [] := List.length_eq_zero.mp hs
    subst hnil
    rw [List.append_nil]
    exact ⟨hWF, rfl, le_refl _, fun j hj hav => ⟨rfl, hav⟩⟩
  · rw [if_neg hs] at hok
    cases hres : r.reserve s.length st with
    | error e =>
      rw [hres] at hok
      exact absurd hok (by simp)
    | ok p =>
      obtain ⟨r1, st1⟩ := p
      rw [hres] at hok
      replace hok : Option.map Except.ok (r1.writeContent (r1.asBytes st1 ++ s) st1) =
          some (.ok (r2, st2)) := hok
      obtain ⟨hWF1, hbytes1, hlen1, hstat1, huniq1, hcap1, hmono1, hnext1, hframe1⟩ :=
        reserve_spec r s.length st hWF r1 st1 hres
      cases hw : r1.writeContent (r1.asBytes st1 ++ s) st1 with
      | none =>
        rw [hw] at hok
        exact absurd hok (by simp)
      | some q =>
        obtain ⟨r2q, st2q⟩ := q
        rw [hw] at hok
        simp only [Option.map, Option.some.injEq, Except.ok.injEq, Prod.mk.injEq] at hok
        obtain ⟨rfl, rfl⟩ := hok
        obtain ⟨hWF2, hbytes2, hlen2, hnext2, hstat2, huniq2, hframe2⟩ :=
          writeContent_spec r1 _ st1 hWF1 huniq1 r2q st2q hw
        refine ⟨hWF2, ?_, ?_, ?_⟩
        · rw [hbytes2, hbytes1]
        · omega
        · intro j hj hav
          obtain ⟨hd1, hav1⟩ := hframe1 j hj hav
          obtain ⟨hd2, hav2⟩ := hframe2 j hav1
          exact ⟨hd2.trans hd1, hav2⟩

/-- Specification of `LeanString::clear`: it always succeeds, the resulting
content is empty, and no shared or foreign buffer is modified. -/
theorem clearLS_spec (r : Repr) (st : Store) (hWF : WF r st)
    (r2 : Repr) (st2 : Store) (hok : clearLS r st = some (r2, st2)) :
    WF r2 st2 ∧ r2.asBytes st2 = [] ∧ st.next ≤ st2.next ∧
    (∀ j, j < st.next → Avoids r st j →
      (st2.bufs j).data = (st.bufs j).data ∧ Avoids r2 st2 j) := by
  cases r with
  | inline d =>
    have hred : clearLS (.inline d) st = some (.inline (d.take 0), st) := by
      simp [clearLS, Repr.isUnique, Repr.setLen, MAX_INLINE_SIZE, USIZE_SIZE]
    rw [hred] at hok
    simp only [Option.some.injEq, Prod.mk.injEq] at hok
    obtain ⟨rfl, rfl⟩ := hok
    exact ⟨by simp [WF, MAX_INLINE_SIZE], by simp [Repr.asBytes], le_refl _,
      fun j hj hav => ⟨rfl, avoids_inline⟩⟩
  | static d l =>
    have hred : clearLS (.static d l) st = some (.static d 0, st) := by
      simp [clearLS, Repr.isUnique, Repr.setLen]
    rw [hred] at hok
    simp only [Option.some.injEq, Prod.mk.injEq] at hok
    obtain ⟨rfl, rfl⟩ := hok
    exact ⟨⟨Nat.zero_le _, Nat.zero_le _⟩, by simp [Repr.asBytes], le_refl _,
      fun j hj hav => ⟨rfl, avoids_static⟩⟩
  | heap i l =>
    obtain ⟨hi, hcount, hlcap, hdata, hltext, hal⟩ := hWF
    by_cases hc : (st.bufs i).count = 1
    · have hred : clearLS (.heap i l) st = some (.heap i 0, st) := by
        simp [clearLS, Repr.isUnique, hc, Repr.setLen, TEXT_SIZE_MAX]
      rw [hred] at hok
      simp only [Option.some.injEq, Prod.mk.injEq] at hok
      obtain ⟨rfl, rfl⟩ := hok
      refine ⟨⟨hi, hcount, Nat.zero_le _, hdata, Nat.zero_le _, hal⟩,
        by simp [Repr.asBytes], le_refl _, ?_⟩
      intro j hj hav
      refine ⟨rfl, ?_⟩
      intro l2 heq
      injection heq with hh1 hh2
      subst hh1
      exact hav l rfl
    · have hred : clearLS (.heap i l) st = some (.inline [], decRef st i) := by
        simp [clearLS, Repr.isUnique, hc, Repr.replaceInner]
      rw [hred] at hok
      simp only [Option.some.injEq, Prod.mk.injEq] at hok
      obtain ⟨rfl, rfl⟩ := hok
      exact ⟨by simp [WF, MAX_INLINE_SIZE], rfl, by simp [decRef_next],
        fun j hj hav => ⟨decRef_data st i j, avoids_inline⟩⟩

/-- Specification of `Repr::pop`: on an empty value it is the identity and
returns `none`; otherwise it returns the character decoded from the end and
truncates the content by its UTF-8 length.  No shared or foreign buffer is
modified. -/
theorem pop_spec (r : Repr) (st : Store) (hWF : WF r st)
    (res : Option Nat) (r2 : Repr) (st2 : Store)
    (hok : r.pop st = some (.ok (res, r2, st2))) :
    WF r2 st2 ∧ st.next ≤ st2.next ∧
    ((res = none ∧ r2 = r ∧ st2 = st) ∨
      (∃ c k, decodeLast (r.asBytes st) = some (c, k) ∧ res = some c ∧
        r2.asBytes st2 = (r.asBytes st).take (r.len - k))) ∧
    (∀ j, j < st.next → Avoids r st j →
      (st2.bufs j).data = (st.bufs j).data ∧ Avoids r2 st2 j) := by
  rw [Repr.pop] at hok
  split at hok
  next hdl =>
    simp only [Option.some.injEq, Except.ok.injEq, Prod.mk.injEq] at hok
    obtain ⟨rfl, rfl, rfl⟩ := hok
    exact ⟨hWF, le_refl _, Or.inl ⟨rfl, rfl, rfl⟩, fun j hj hav => ⟨rfl, hav⟩⟩
  next c k hdl =>
    cases r with
    | heap i l =>
      obtain ⟨hi, hcount, hlcap, hdata, hltext, hal⟩ := hWF
      simp only [] at hok
      by_cases hc : (st.bufs i).count = 1
      · rw [if_pos hc] at hok
        have hsl : Repr.setLen (.heap i l) (l - k) = some (.heap i (l - k)) := by
          simp [Repr.setLen]
          omega
        rw [hsl] at hok
        replace hok : some (Except.ok ((some c : Option Nat), Repr.heap i (l - k), st)) =
            some (.ok (res, r2, st2)) := hok
        simp only [Option.some.injEq, Except.ok.injEq, Prod.mk.injEq] at hok
        obtain ⟨rfl, rfl, rfl⟩ := hok
        refine ⟨⟨hi, hcount, by omega, hdata, by omega, hal⟩, le_refl _, ?_, ?_⟩
        · refine Or.inr ⟨c, k, hdl, rfl, ?_⟩
          rw [asBytes_heap, asBytes_heap, List.take_take]
          show _ = (st.bufs i).data.take (min (Repr.len (.heap i l) - k) l)
          congr 1
          simp only [Repr.len]
          omega
        · intro j hj hav
          refine ⟨rfl, ?_⟩
          intro l2 heq
          injection heq with hh1 hh2
          subst hh1
          exact hav l rfl
      · rw [if_neg hc] at hok
        rw [Repr.fromStr] at hok
        by_cases hsmall : ((st.bufs i).data.take (l - k)).length ≤ MAX_INLINE_SIZE
        · rw [if_pos hsmall] at hok
          replace hok : some (Except.ok ((some c : Option Nat),
              Repr.inline ((st.bufs i).data.take (l - k)), decRef st i)) =
              some (.ok (res, r2, st2)) := hok
          simp only [Option.some.injEq, Except.ok.injEq, Prod.mk.injEq] at hok
          obtain ⟨rfl, rfl, rfl⟩ := hok
          refine ⟨hsmall, by simp [decRef_next], ?_, ?_⟩
          · refine Or.inr ⟨c, k, hdl, rfl, ?_⟩
            rw [asBytes_inline, asBytes_heap, List.take_take]
            show _ = (st.bufs i).data.take (min (Repr.len (.heap i l) - k) l)
            congr 1
            simp only [Repr.len]
            omega
          · intro j hj hav
            exact ⟨decRef_data st i j, avoids_inline⟩
        · rw [if_neg hsmall] at hok
          have hslen : ((st.bufs i).data.take (l - k)).length = l - k := by
            rw [length_take_of_le]
            omega
          obtain ⟨stN, h1, h2, h3, h4⟩ :=
            heapNew_spec ((st.bufs i).data.take (l - k)) (decRef st i)
              (by rw [hslen]; omega)
          rw [h1] at hok
          replace hok : some (Except.ok ((some c : Option Nat),
              Repr.heap (decRef st i).next ((st.bufs i).data.take (l - k)).length, stN)) =
              some (.ok (res, r2, st2)) := hok
          rw [decRef_next] at hok h2 h3
          simp only [Option.some.injEq, Except.ok.injEq, Prod.mk.injEq] at hok
          obtain ⟨rfl, rfl, rfl⟩ := hok
          refine ⟨⟨?_, ?_, ?_, ?_, ?_, ?_⟩, by omega, ?_, ?_⟩
          · omega
          · rw [h3]
          · rw [h3]
          · rw [h3]
            exact padTo_length _ _ (le_refl _)
          · rw [hslen]
            omega
          · rw [h3]
            show HEADER_SIZE + ((st.bufs i).data.take (l - k)).length ≤ ALLOC_LIMIT
            rw [hslen]
            have := text_le_alloc (n := l - k) (by omega)
            omega
          · refine Or.inr ⟨c, k, hdl, rfl, ?_⟩
            rw [asBytes_heap, h3, asBytes_heap]
            show (padTo ((st.bufs i).data.take (l - k)) _).take
                ((st.bufs i).data.take (l - k)).length = _
            rw [padTo_take, List.take_take]
            show _ = (st.bufs i).data.take (min (Repr.len (.heap i l) - k) l)
            congr 1
            simp only [Repr.len]
            omega
          · intro j hj hav
            have hne : j ≠ st.next := by omega
            rw [h4 j hne]
            exact ⟨decRef_data st i j, avoids_heap_ne fun h => hne h.symm⟩
    | static d l =>
      obtain ⟨hld, hltext⟩ := hWF
      simp only [Option.some.injEq, Except.ok.injEq, Prod.mk.injEq] at hok
      obtain ⟨rfl, rfl, rfl⟩ := hok
      refine ⟨⟨by omega, by omega⟩, le_refl _, ?_, fun j hj hav => ⟨rfl, avoids_static⟩⟩
      refine Or.inr ⟨c, k, hdl, rfl, ?_⟩
      rw [asBytes_static, asBytes_static, List.take_take]
      show _ = d.take (min (Repr.len (.static d l) - k) l)
      congr 1
      simp only [Repr.len]
      omega
    | inline d =>
      have hd : d.length ≤ MAX_INLINE_SIZE := hWF
      simp only [Option.some.injEq, Except.ok.injEq, Prod.mk.injEq] at hok
      obtain ⟨rfl, rfl, rfl⟩ := hok
      refine ⟨?_, le_refl _, ?_, fun j hj hav => ⟨rfl, avoids_inline⟩⟩
      · show (d.take (d.length - k)).length ≤ MAX_INLINE_SIZE
        simp
        omega
      · exact Or.inr ⟨c, k, hdl, rfl, rfl⟩

end LeanStr

namespace LeanStr

/-- Specification of `Repr::remove` on a success: the returned character is
decoded at the given boundary and its bytes are spliced out of the content.
No shared or foreign buffer is modified. -/
theorem remove_spec (r : Repr) (idx : Nat) (st : Store) (hWF : WF r st)
    (ch : Nat) (r2 : Repr) (st2 : Store)
    (hok : r.remove idx st = some (.ok (ch, r2, st2))) :
    WF r2 st2 ∧ st.next ≤ st2.next ∧
    (∃ k, decodeFirst ((r.asBytes st).drop idx) = some (ch, k) ∧
      r2.asBytes st2 = (r.asBytes st).take idx ++ (r.asBytes st).drop (idx + k)) ∧
    (∀ j, j < st.next → Avoids r st j →
      (st2.bufs j).data = (st.bufs j).data ∧ Avoids r2 st2 j) := by
  rw [Repr.remove] at hok
  split at hok
  case isFalse => exact absurd hok (by simp)
  case isTrue hpre =>
  cases hens : r.ensureModifiable st with
  | error e =>
    rw [hens] at hok
    exact absurd hok (by simp)
  | ok p =>
    obtain ⟨r1, st1⟩ := p
    rw [hens] at hok
    obtain ⟨hWF1, hbytes1, hlen1, hstat1, huniq1, hnext1, hframe1⟩ :=
      ensureModifiable_spec r st hWF r1 st1 hens
    replace hok :
        (match decodeFirst ((r1.asBytes st1).drop idx) with
          | none => none
          | some (c, k) =>
            Option.map (fun p => Except.ok (c, p.1, p.2))
              (r1.writeContent ((r1.asBytes st1).take idx ++
                (r1.asBytes st1).drop (idx + k)) st1)) =
          some (.ok (ch, r2, st2)) := hok
    rw [hbytes1] at hok
    cases hdf : decodeFirst ((r.asBytes st).drop idx) with
    | none =>
      rw [hdf] at hok
      exact absurd hok (by simp)
    | some ck =>
      obtain ⟨c, k⟩ := ck
      rw [hdf] at hok
      replace hok :
          Option.map (fun p =>
              (Except.ok (c, p.1, p.2) : Except ReserveError (Nat × Repr × Store)))
            (r1.writeContent ((r.asBytes st).take idx ++ (r.asBytes st).drop (idx + k))
              st1) = some (.ok (ch, r2, st2)) := hok
      cases hw : r1.writeContent ((r.asBytes st).take idx ++ (r.asBytes st).drop (idx + k))
          st1 with
      | none =>
        rw [hw] at hok
        exact absurd hok (by simp)
      | some q =>
        obtain ⟨r2q, st2q⟩ := q
        rw [hw] at hok
        simp only [Option.map, Option.some.injEq, Except.ok.injEq, Prod.mk.injEq] at hok
        obtain ⟨rfl, rfl, rfl⟩ := hok
        have hWF1b : WF r1 st1 := hWF1
        obtain ⟨hWF2, hbytes2, hlen2, hnext2, hstat2, huniq2, hframe2⟩ :=
          writeContent_spec r1 _ st1 hWF1 huniq1 r2q st2q hw
        refine ⟨hWF2, by omega, ⟨k, rfl, hbytes2⟩, ?_⟩
        intro j hj hav
        obtain ⟨hd1, hav1⟩ := hframe1 j hj hav
        obtain ⟨hd2, hav2⟩ := hframe2 j hav1
        exact ⟨hd2.trans hd1, hav2⟩

/-- Specification of `Repr::insert_str` on a success: the pushed bytes are
spliced in at the given boundary.  No shared or foreign buffer is modified. -/
theorem insertStr_spec (r : Repr) (idx : Nat) (s : List Nat) (st : Store) (hWF : WF r st)
    (r2 : Repr) (st2 : Store) (hok : r.insertStr idx s st = some (.ok (r2, st2))) :
    WF r2 st2 ∧ st.next ≤ st2.next ∧
    r2.asBytes st2 = (r.asBytes st).take idx ++ s ++ (r.asBytes st).drop idx ∧
    (∀ j, j < st.next → Avoids r st j →
      (st2.bufs j).data = (st.bufs j).data ∧ Avoids r2 st2 j) := by
  rw [Repr.insertStr] at hok
  split at hok
  case isFalse => exact absurd hok (by simp)
  case isTrue hpre =>
  split at hok
  case isTrue hov => exact absurd hok (by simp)
  case isFalse hov =>
  cases hres : r.reserve s.length st with
  | error e =>
    rw [hres] at hok
    exact absurd hok (by simp)
  | ok p =>
    obtain ⟨r1, st1⟩ := p
    rw [hres] at hok
    obtain ⟨hWF1, hbytes1, hlen1, hstat1, huniq1, hcap1, hmono1, hnext1, hframe1⟩ :=
      reserve_spec r s.length st hWF r1 st1 hres
    replace hok :
        Option.map Except.ok
          (r1.writeContent ((r1.asBytes st1).take idx ++ s ++ (r1.asBytes st1).drop idx)
            st1) = some (.ok (r2, st2)) := hok
    rw [hbytes1] at hok
    cases hw : r1.writeContent ((r.asBytes st).take idx ++ s ++ (r.asBytes st).drop idx)
        st1 with
    | none =>
      rw [hw] at hok
      exact absurd hok (by simp)
    | some q =>
      obtain ⟨r2q, st2q⟩ := q
      rw [hw] at hok
      simp only [Option.map, Option.some.injEq, Except.ok.injEq, Prod.mk.injEq] at hok
      obtain ⟨rfl, rfl⟩ := hok
      obtain ⟨hWF2, hbytes2, hlen2, hnext2, hstat2, huniq2, hframe2⟩ :=
        writeContent_spec r1 _ st1 hWF1 huniq1 r2q st2q hw
      refine ⟨hWF2, by omega, hbytes2, ?_⟩
      intro j hj hav
      obtain ⟨hd1, hav1⟩ := hframe1 j hj hav
      obtain ⟨hd2, hav2⟩ := hframe2 j hav1
      exact ⟨hd2.trans hd1, hav2⟩

/-- Specification of `Repr::retain` on a success: the content becomes the
two-cursor compaction of the old content.  No shared or foreign buffer is
modified. -/
theorem retain_spec (r : Repr) (p : Nat → Bool) (st : Store) (hWF : WF r st)
    (r2 : Repr) (st2 : Store) (hok : r.retain p st = some (.ok (r2, st2))) :
    WF r2 st2 ∧ st.next ≤ st2.next ∧
    r2.asBytes st2 = retainBytes p (r.asBytes st) ∧
    (∀ j, j < st.next → Avoids r st j →
      (st2.bufs j).data = (st.bufs j).data ∧ Avoids r2 st2 j) := by
  rw [Repr.retain] at hok
  cases hens : r.ensureModifiable st with
  | error e =>
    rw [hens] at hok
    exact absurd hok (by simp)
  | ok q =>
    obtain ⟨r1, st1⟩ := q
    rw [hens] at hok
    obtain ⟨hWF1, hbytes1, hlen1, hstat1, huniq1, hnext1, hframe1⟩ :=
      ensureModifiable_spec r st hWF r1 st1 hens
    replace hok :
        Option.map Except.ok (r1.writeContent (retainBytes p (r1.asBytes st1)) st1) =
          some (.ok (r2, st2)) := hok
    rw [hbytes1] at hok
    cases hw : r1.writeContent (retainBytes p (r.asBytes st)) st1 with
    | none =>
      rw [hw] at hok
      exact absurd hok (by simp)
    | some q2 =>
      obtain ⟨r2q, st2q⟩ := q2
      rw [hw] at hok
      simp only [Option.map, Option.some.injEq, Except.ok.injEq, Prod.mk.injEq] at hok
      obtain ⟨rfl, rfl⟩ := hok
      obtain ⟨hWF2, hbytes2, hlen2, hnext2, hstat2, huniq2, hframe2⟩ :=
        writeContent_spec r1 _ st1 hWF1 huniq1 r2q st2q hw
      refine ⟨hWF2, by omega, hbytes2, ?_⟩
      intro j hj hav
      obtain ⟨hd1, hav1⟩ := hframe1 j hj hav
      obtain ⟨hd2, hav2⟩ := hframe2 j hav1
      exact ⟨hd2.trans hd1, hav2⟩

end LeanStr

namespace LeanStr

/-- Frame property of a single successful mutation: a buffer that the mutated
value either does not reference or only references as a shared owner keeps its
payload bytes. -/
theorem applyMut_frame (m : Mutation) (r : Repr) (st : Store) (hWF : WF r st)
    (r2 : Repr) (st2 : Store) (hok : applyMut m r st = some (.ok (r2, st2)))
    (j : Nat) (hj : j < st.next) (hav : Avoids r st j) :
    (st2.bufs j).data = (st.bufs j).data := by
  cases m with
  | pushStr s => exact ((pushStr_spec r s st hWF r2 st2 hok).2.2.2 j hj hav).1
  | insertStr idx s => exact ((insertStr_spec r idx s st hWF r2 st2 hok).2.2.2 j hj hav).1
  | retain p => exact ((retain_spec r p st hWF r2 st2 hok).2.2.2 j hj hav).1
  | reserve n =>
    simp only [applyMut, Option.some.injEq] at hok
    exact ((reserve_spec r n st hWF r2 st2 hok).2.2.2.2.2.2.2.2 j hj hav).1
  | shrinkTo n =>
    simp only [applyMut, Option.some.injEq] at hok
    exact ((shrinkTo_spec r n st hWF r2 st2 hok).2.2.2.2.2.2 j hj hav).1
  | clear =>
    simp only [applyMut] at hok
    cases hc : clearLS r st with
    | none => rw [hc] at hok; exact absurd hok (by simp)
    | some q =>
      obtain ⟨a, b⟩ := q
      rw [hc] at hok
      simp only [Option.map, Option.some.injEq, Except.ok.injEq, Prod.mk.injEq] at hok
      obtain ⟨rfl, rfl⟩ := hok
      exact ((clearLS_spec r st hWF a b hc).2.2.2 j hj hav).1
  | pop =>
    simp only [applyMut] at hok
    cases hp : r.pop st with
    | none => rw [hp] at hok; exact absurd hok (by simp)
    | some e =>
      rw [hp] at hok
      cases e with
      | error er => exact absurd hok (by simp [Except.map])
      | ok t =>
        obtain ⟨res, a, b⟩ := t
        simp only [Option.map, Except.map, Option.some.injEq, Except.ok.injEq,
          Prod.mk.injEq] at hok
        obtain ⟨rfl, rfl⟩ := hok
        exact ((pop_spec r st hWF res a b hp).2.2.2 j hj hav).1
  | remove idx =>
    simp only [applyMut] at hok
    cases hp : r.remove idx st with
    | none => rw [hp] at hok; exact absurd hok (by simp)
    | some e =>
      rw [hp] at hok
      cases e with
      | error er => exact absurd hok (by simp [Except.map])
      | ok t =>
        obtain ⟨ch, a, b⟩ := t
        simp only [Option.map, Except.map, Option.some.injEq, Except.ok.injEq,
          Prod.mk.injEq] at hok
        obtain ⟨rfl, rfl⟩ := hok
        exact ((remove_spec r idx st hWF ch a b hp).2.2.2 j hj hav).1

/-- C1. Copy-on-write independence: take any well-formed `Repr` `a`, clone it
(`b` is the returned bitwise copy and the store has the bumped refcount), and
run any one mutation on `a` in the post-clone store.  If the mutation
succeeds, the clone `b` reads exactly the same bytes as before, and
symmetrically the original value `a` reads the same bytes — mutating either
of the two (they are the same two-word value) never changes what the other
observes. -/
theorem cow_independence (a : Repr) (st : Store) (m : Mutation) (hWF : WF a st) :
    ∀ a2 st2, applyMut m a (a.makeShallowClone st).2 = some (.ok (a2, st2)) →
      ((a.makeShallowClone st).1).asBytes st2 = ((a.makeShallowClone st).1).asBytes st ∧
      a.asBytes st2 = a.asBytes st := by
  intro a2 st2 hok
  have hfst : (a.makeShallowClone st).1 = a := by cases a <;> rfl
  rw [hfst]
  suffices h : a.asBytes st2 = a.asBytes st by exact ⟨h, h⟩
  cases a with
  | inline d => rfl
  | static d l => rfl
  | heap i l =>
    obtain ⟨hi, hcount, hlcap, hdata, hltext, hal⟩ := hWF
    have hsnd : ((Repr.heap i l).makeShallowClone st).2 =
        setBuf st i
          { count := (st.bufs i).count + 1, capacity := (st.bufs i).capacity,
            data := (st.bufs i).data } := rfl
    rw [hsnd] at hok
    have hWF1 : WF (Repr.heap i l)
        (setBuf st i
          { count := (st.bufs i).count + 1, capacity := (st.bufs i).capacity,
            data := (st.bufs i).data }) := by
      refine ⟨hi, ?_, ?_, ?_, hltext, ?_⟩ <;> rw [setBuf_bufs_self]
      · show 1 ≤ (st.bufs i).count + 1
        omega
      · exact hlcap
      · exact hdata
      · exact hal
    have hav : Avoids (Repr.heap i l)
        (setBuf st i
          { count := (st.bufs i).count + 1, capacity := (st.bufs i).capacity,
            data := (st.bufs i).data }) i := by
      intro l2 heq
      rw [setBuf_bufs_self]
      show 2 ≤ (st.bufs i).count + 1
      omega
    have hfr := applyMut_frame m (Repr.heap i l) _ hWF1 a2 st2 hok i hi hav
    rw [setBuf_bufs_self] at hfr
    rw [asBytes_heap, asBytes_heap, hfr]

/-- Witness for `cow_independence`: clearing a cloned inline value. -/
theorem cow_independence_witness :
    (((Repr.inline [97]).makeShallowClone emptyStore).1).asBytes emptyStore =
      (((Repr.inline [97]).makeShallowClone emptyStore).1).asBytes emptyStore ∧
    (Repr.inline [97]).asBytes emptyStore = (Repr.inline [97]).asBytes emptyStore :=
  cow_independence (.inline [97]) emptyStore .clear (by decide) (.inline [])
    emptyStore (by rfl)

end LeanStr

namespace LeanStr

/-- C8. ReserveError conditions, in the model where the allocator fails
exactly at the layout bound: construction errors exactly when the length
exceeds `2^56 - 1` (for both the Heap and the Static constructor); `reserve`
errors when `len + additional` overflows a `usize`, and any `reserve` error is
either that overflow or the layout size bound on the amortized capacity;
violated preconditions of `remove`/`insert_str` (non-boundary or
out-of-range indices) are panics (`none`), never a `ReserveError`, while
`insert_str` reports length overflow as a `ReserveError`. -/
theorem reserve_error_conditions (s : List Nat) (r : Repr) (k idx : Nat) (st : Store)
    (hWF : WF r st) :
    (∀ e, Repr.fromStr s st = .error e ↔ TEXT_SIZE_MAX < s.length) ∧
    (∀ e, Repr.fromStaticStr s st = .error e ↔ TEXT_SIZE_MAX < s.length) ∧
    (USIZE_MAX < r.len + k → r.reserve k st = .error .mk) ∧
    (∀ e, r.reserve k st = .error e →
      USIZE_MAX < r.len + k ∨ ALLOC_LIMIT < HEADER_SIZE + amortizedGrowth r.len k) ∧
    (¬(isCharBoundary (r.asBytes st) idx = true ∧ idx < r.len) →
      r.remove idx st = none) ∧
    (isCharBoundary (r.asBytes st) idx = false → r.insertStr idx s st = none) ∧
    (isCharBoundary (r.asBytes st) idx = true → USIZE_MAX < r.len + s.length →
      r.insertStr idx s st = some (.error .mk)) := by
  refine ⟨?_, ?_, ?_, ?_, ?_, ?_, ?_⟩
  · intro e
    constructor
    · intro herr
      by_contra hle
      rw [Nat.not_lt] at hle
      by_cases hsm : s.length ≤ MAX_INLINE_SIZE
      · rw [Repr.fromStr, if_pos hsm] at herr
        exact Except.noConfusion herr
      · rw [Repr.fromStr, if_neg hsm, heapNew, if_neg (Nat.not_lt.mpr hle), allocBuf,
          if_neg (text_le_alloc hle)] at herr
        exact Except.noConfusion herr
    · intro hgt
      have hbig : ¬ s.length ≤ MAX_INLINE_SIZE := by
        unfold TEXT_SIZE_MAX MAX_INLINE_SIZE USIZE_SIZE at *
        omega
      rw [Repr.fromStr, if_neg hbig, heapNew, if_pos hgt]
      rfl
  · intro e
    constructor
    · intro herr
      by_contra hle
      rw [Nat.not_lt] at hle
      by_cases hsm : s.length ≤ MAX_INLINE_SIZE
      · rw [Repr.fromStaticStr, if_pos hsm] at herr
        exact Except.noConfusion herr
      · rw [Repr.fromStaticStr, if_neg hsm, if_neg (Nat.not_lt.mpr hle)] at herr
        exact Except.noConfusion herr
    · intro hgt
      have hbig : ¬ s.length ≤ MAX_INLINE_SIZE := by
        unfold TEXT_SIZE_MAX MAX_INLINE_SIZE USIZE_SIZE at *
        omega
      rw [Repr.fromStaticStr, if_neg hbig, if_pos hgt]
  · intro hov
    rw [Repr.reserve.eq_def, if_pos hov]
  · intro e herr
    by_cases hov : USIZE_MAX < r.len + k
    · exact Or.inl hov
    right
    cases r with
    | heap i l =>
      obtain ⟨hi, hcount, hlcap, hdata, hltext, hal⟩ := hWF
      rw [Repr.reserve] at herr
      simp only [Repr.len] at hov herr ⊢
      rw [if_neg hov] at herr
      split at herr
      next hc =>
        split at herr
        next hcap => exact Except.noConfusion herr
        next hcap =>
          rw [heapRealloc] at herr
          split at herr
          next hre =>
            unfold satAdd USIZE_MAX ALLOC_LIMIT HEADER_SIZE USIZE_SIZE at *
            omega
          next hre => exact Except.noConfusion herr
      next hc =>
        rw [heapWithAdditional] at herr
        have htl : ((st.bufs i).data.take l).length = l := by
          rw [length_take_of_le]
          omega
        split at herr
        next hbig =>
          rw [htl] at hbig
          omega
        next hbig =>
          rw [allocBuf] at herr
          split at herr
          next halloc =>
            rw [htl] at halloc
            exact halloc
          next halloc => exact Except.noConfusion herr
    | static d l =>
      obtain ⟨hld, hltext⟩ := hWF
      rw [Repr.reserve] at herr
      simp only [Repr.len] at hov herr ⊢
      rw [if_neg hov] at herr
      have htl : (d.take l).length = l := length_take_of_le hld
      split at herr
      next hsmall => exact Except.noConfusion herr
      next hsmall =>
        rw [heapWithAdditional] at herr
        split at herr
        next hbig =>
          rw [htl] at hbig
          omega
        next hbig =>
          rw [allocBuf] at herr
          split at herr
          next halloc =>
            rw [htl] at halloc
            exact halloc
          next halloc => exact Except.noConfusion herr
    | inline d =>
      have hd : d.length ≤ MAX_INLINE_SIZE := hWF
      rw [Repr.reserve] at herr
      simp only [Repr.len] at hov herr ⊢
      rw [if_neg hov] at herr
      split at herr
      next hsmall => exact Except.noConfusion herr
      next hsmall =>
        rw [heapWithAdditional] at herr
        split at herr
        next hbig =>
          unfold TEXT_SIZE_MAX MAX_INLINE_SIZE USIZE_SIZE at *
          omega
        next hbig =>
          rw [allocBuf] at herr
          split at herr
          next halloc => exact halloc
          next halloc => exact Except.noConfusion herr
  · intro hpre
    rw [Repr.remove, if_neg hpre]
  · intro hb
    rw [Repr.insertStr, if_neg (by simp [hb])]
  · intro hb hov
    rw [Repr.insertStr, if_pos hb, if_pos hov]

/-- Witness for `reserve_error_conditions` on a small inline value. -/
theorem reserve_error_conditions_witness :
    (∀ e, Repr.fromStr [97] emptyStore = .error e ↔ TEXT_SIZE_MAX < [97].length) ∧
    (∀ e, Repr.fromStaticStr [97] emptyStore = .error e ↔ TEXT_SIZE_MAX < [97].length) ∧
    (USIZE_MAX < (Repr.inline []).len + 2 → (Repr.inline []).reserve 2 emptyStore =
      .error .mk) ∧
    (∀ e, (Repr.inline []).reserve 2 emptyStore = .error e →
      USIZE_MAX < (Repr.inline []).len + 2 ∨
        ALLOC_LIMIT < HEADER_SIZE + amortizedGrowth (Repr.inline []).len 2) ∧
    (¬(isCharBoundary ((Repr.inline []).asBytes emptyStore) 5 = true ∧
        5 < (Repr.inline []).len) → (Repr.inline []).remove 5 emptyStore = none) ∧
    (isCharBoundary ((Repr.inline []).asBytes emptyStore) 5 = false →
      (Repr.inline []).insertStr 5 [97] emptyStore = none) ∧
    (isCharBoundary ((Repr.inline []).asBytes emptyStore) 5 = true →
      USIZE_MAX < (Repr.inline []).len + [97].length →
      (Repr.inline []).insertStr 5 [97] emptyStore = some (.error .mk)) :=
  reserve_error_conditions [97] (.inline []) 2 5 emptyStore (by decide)

end LeanStr

namespace LeanStr

/-! UTF-8 encoding and decoding facts. -/

theorem utf8Len_pos (c : Nat) : 1 ≤ utf8Len c := by
  unfold utf8Len
  split_ifs <;> omega

theorem encodeChar_length (c : Nat) : (encodeChar c).length = utf8Len c := by
  unfold encodeChar utf8Len
  split_ifs <;> rfl

theorem utf8Encode_cons (c : Nat) (cs : List Nat) :
    utf8Encode (c :: cs) = encodeChar c ++ utf8Encode cs := by
  unfold utf8Encode
  simp

theorem utf8Encode_append (cs1 cs2 : List Nat) :
    utf8Encode (cs1 ++ cs2) = utf8Encode cs1 ++ utf8Encode cs2 := by
  unfold utf8Encode
  simp

theorem validUtf8_nil : ValidUtf8 [] := ⟨[], by simp, rfl⟩

theorem validUtf8_append {a b : List Nat} (ha : ValidUtf8 a) (hb : ValidUtf8 b) :
    ValidUtf8 (a ++ b) := by
  obtain ⟨cs1, h1, rfl⟩ := ha
  obtain ⟨cs2, h2, rfl⟩ := hb
  refine ⟨cs1 ++ cs2, ?_, (utf8Encode_append _ _).symm⟩
  intro c hc
  rcases List.mem_append.mp hc with h | h
  · exact h1 c h
  · exact h2 c h

theorem decodeFirst_one (b0 : Nat) (rest : List Nat) (h1 : b0 < 0x80) :
    decodeFirst (b0 :: rest) = some (b0, 1) := by
  have e : decodeFirst (b0 :: rest) =
      if b0 < 0x80 then some (b0, 1)
      else
        match rest with
        | [] => none
        | b1 :: rest1 =>
          if b0 < 0xE0 then some (b0 % 32 * 64 + b1 % 64, 2)
          else
            match rest1 with
            | [] => none
            | b2 :: rest2 =>
              if b0 < 0xF0 then some (b0 % 32 * 4096 + b1 % 64 * 64 + b2 % 64, 3)
              else
                match rest2 with
                | [] => none
                | b3 :: _ =>
                  some (b0 % 8 * 262144 + b1 % 64 * 4096 + b2 % 64 * 64 + b3 % 64, 4) := rfl
  rw [e, if_pos h1]

theorem decodeFirst_two (b0 b1 : Nat) (rest : List Nat) (h1 : ¬ b0 < 0x80)
    (h2 : b0 < 0xE0) :
    decodeFirst (b0 :: b1 :: rest) = some (b0 % 32 * 64 + b1 % 64, 2) := by
  have e : decodeFirst (b0 :: b1 :: rest) =
      if b0 < 0x80 then some (b0, 1)
      else if b0 < 0xE0 then some (b0 % 32 * 64 + b1 % 64, 2)
      else
        match rest with
        | [] => none
        | b2 :: rest2 =>
          if b0 < 0xF0 then some (b0 % 32 * 4096 + b1 % 64 * 64 + b2 % 64, 3)
          else
            match rest2 with
            | [] => none
            | b3 :: _ =>
              some (b0 % 8 * 262144 + b1 % 64 * 4096 + b2 % 64 * 64 + b3 % 64, 4) := rfl
  rw [e, if_neg h1, if_pos h2]

theorem decodeFirst_three (b0 b1 b2 : Nat) (rest : List Nat) (h1 : ¬ b0 < 0x80)
    (h2 : ¬ b0 < 0xE0) (h3 : b0 < 0xF0) :
    decodeFirst (b0 :: b1 :: b2 :: rest) =
      some (b0 % 32 * 4096 + b1 % 64 * 64 + b2 % 64, 3) := by
  have e : decodeFirst (b0 :: b1 :: b2 :: rest) =
      if b0 < 0x80 then some (b0, 1)
      else if b0 < 0xE0 then some (b0 % 32 * 64 + b1 % 64, 2)
      else if b0 < 0xF0 then some (b0 % 32 * 4096 + b1 % 64 * 64 + b2 % 64, 3)
      else
        match rest with
        | [] => none
        | b3 :: _ =>
          some (b0 % 8 * 262144 + b1 % 64 * 4096 + b2 % 64 * 64 + b3 % 64, 4) := rfl
  rw [e, if_neg h1, if_neg h2, if_pos h3]

theorem decodeFirst_four (b0 b1 b2 b3 : Nat) (rest : List Nat) (h1 : ¬ b0 < 0x80)
    (h2 : ¬ b0 < 0xE0) (h3 : ¬ b0 < 0xF0) :
    decodeFirst (b0 :: b1 :: b2 :: b3 :: rest) =
      some (b0 % 8 * 262144 + b1 % 64 * 4096 + b2 % 64 * 64 + b3 % 64, 4) := by
  have e : decodeFirst (b0 :: b1 :: b2 :: b3 :: rest) =
      if b0 < 0x80 then some (b0, 1)
      else if b0 < 0xE0 then some (b0 % 32 * 64 + b1 % 64, 2)
      else if b0 < 0xF0 then some (b0 % 32 * 4096 + b1 % 64 * 64 + b2 % 64, 3)
      else some (b0 % 8 * 262144 + b1 % 64 * 4096 + b2 % 64 * 64 + b3 % 64, 4) := rfl
  rw [e, if_neg h1, if_neg h2, if_neg h3]

theorem decodeFirst_encodeChar (c : Nat) (rest : List Nat) (hc : c < 0x110000) :
    decodeFirst (encodeChar c ++ rest) = some (c, utf8Len c) := by
  by_cases h1 : c < 0x80
  · have e1 : encodeChar c ++ rest = c :: rest := by
      unfold encodeChar
      rw [if_pos h1]
      rfl
    have hl : utf8Len c = 1 := by
      unfold utf8Len
      rw [if_pos h1]
    rw [e1, hl, decodeFirst_one _ _ h1]
  · by_cases h2 : c < 0x800
    · have e1 : encodeChar c ++ rest = (0xC0 + c / 64) :: (0x80 + c % 64) :: rest := by
        unfold encodeChar
        rw [if_neg h1, if_pos h2]
        rfl
      have hl : utf8Len c = 2 := by
        unfold utf8Len
        rw [if_neg h1, if_pos h2]
      rw [e1, hl, decodeFirst_two _ _ _ (by omega) (by omega)]
      simp only [Option.some.injEq, Prod.mk.injEq]
      exact ⟨by omega, trivial⟩
    · by_cases h3 : c < 0x10000
      · have e1 : encodeChar c ++ rest =
            (0xE0 + c / 4096) :: (0x80 + c / 64 % 64) :: (0x80 + c % 64) :: rest := by
          unfold encodeChar
          rw [if_neg h1, if_neg h2, if_pos h3]
          rfl
        have hl : utf8Len c = 3 := by
          unfold utf8Len
          rw [if_neg h1, if_neg h2, if_pos h3]
        rw [e1, hl, decodeFirst_three _ _ _ _ (by omega) (by omega) (by omega)]
        simp only [Option.some.injEq, Prod.mk.injEq]
        exact ⟨by omega, trivial⟩
      · have e1 : encodeChar c ++ rest =
            (0xF0 + c / 262144) :: (0x80 + c / 4096 % 64) :: (0x80 + c / 64 % 64) ::
              (0x80 + c % 64) :: rest := by
          unfold encodeChar
          rw [if_neg h1, if_neg h2, if_neg h3]
          rfl
        have hl : utf8Len c = 4 := by
          unfold utf8Len
          rw [if_neg h1, if_neg h2, if_neg h3]
        rw [e1, hl, decodeFirst_four _ _ _ _ _ (by omega) (by omega) (by omega)]
        simp only [Option.some.injEq, Prod.mk.injEq]
        refine ⟨?_, trivial⟩
        have hd : c / 262144 < 8 := by omega
        omega

end LeanStr

namespace LeanStr

theorem decodeLastRev_one (w : Nat) (rest : List Nat) (h1 : w < 0x80) :
    decodeLastRev (w :: rest) = some (w, 1) := by
  have e : decodeLastRev (w :: rest) =
      if w < 0x80 then some (w, 1)
      else
        match rest with
        | [] => none
        | z :: rest1 =>
          if isCont z then
            match rest1 with
            | [] => none
            | y :: rest2 =>
              if isCont y then
                match rest2 with
                | [] => none
                | x :: _ =>
                  some (x % 8 * 262144 + y % 64 * 4096 + z % 64 * 64 + w % 64, 4)
              else some (y % 16 * 4096 + z % 64 * 64 + w % 64, 3)
          else some (z % 32 * 64 + w % 64, 2) := rfl
  rw [e, if_pos h1]

theorem decodeLastRev_two (w z : Nat) (rest : List Nat) (h1 : ¬ w < 0x80)
    (h2 : isCont z = false) :
    decodeLastRev (w :: z :: rest) = some (z % 32 * 64 + w % 64, 2) := by
  have e : decodeLastRev (w :: z :: rest) =
      if w < 0x80 then some (w, 1)
      else
        if isCont z then
          match rest with
          | [] => none
          | y :: rest2 =>
            if isCont y then
              match rest2 with
              | [] => none
              | x :: _ =>
                some (x % 8 * 262144 + y % 64 * 4096 + z % 64 * 64 + w % 64, 4)
            else some (y % 16 * 4096 + z % 64 * 64 + w % 64, 3)
        else some (z % 32 * 64 + w % 64, 2) := rfl
  rw [e, if_neg h1, if_neg (by simp [h2])]

theorem decodeLastRev_three (w z y : Nat) (rest : List Nat) (h1 : ¬ w < 0x80)
    (h2 : isCont z = true) (h3 : isCont y = false) :
    decodeLastRev (w :: z :: y :: rest) =
      some (y % 16 * 4096 + z % 64 * 64 + w % 64, 3) := by
  have e : decodeLastRev (w :: z :: y :: rest) =
      if w < 0x80 then some (w, 1)
      else
        if isCont z then
          if isCont y then
            match rest with
            | [] => none
            | x :: _ =>
              some (x % 8 * 262144 + y % 64 * 4096 + z % 64 * 64 + w % 64, 4)
          else some (y % 16 * 4096 + z % 64 * 64 + w % 64, 3)
        else some (z % 32 * 64 + w % 64, 2) := rfl
  rw [e, if_neg h1, if_pos (by simp [h2]), if_neg (by simp [h3])]

theorem decodeLastRev_four (w z y x : Nat) (rest : List Nat) (h1 : ¬ w < 0x80)
    (h2 : isCont z = true) (h3 : isCont y = true) :
    decodeLastRev (w :: z :: y :: x :: rest) =
      some (x % 8 * 262144 + y % 64 * 4096 + z % 64 * 64 + w % 64, 4) := by
  have e : decodeLastRev (w :: z :: y :: x :: rest) =
      if w < 0x80 then some (w, 1)
      else
        if isCont z then
          if isCont y then
            some (x % 8 * 262144 + y % 64 * 4096 + z % 64 * 64 + w % 64, 4)
          else some (y % 16 * 4096 + z % 64 * 64 + w % 64, 3)
        else some (z % 32 * 64 + w % 64, 2) := rfl
  rw [e, if_neg h1, if_pos (by simp [h2]), if_pos (by simp [h3])]

/-- Correctness of backward decoding: the last character of a byte list that
ends in the encoding of a scalar value is that value. -/
theorem decodeLast_append_encodeChar (pre : List Nat) (c : Nat) (hc : c < 0x110000) :
    decodeLast (pre ++ encodeChar c) = some (c, utf8Len c) := by
  rw [decodeLast, List.reverse_append]
  by_cases h1 : c < 0x80
  · have e1 : (encodeChar c).reverse = [c] := by
      unfold encodeChar
      rw [if_pos h1]
      rfl
    have hl : utf8Len c = 1 := by
      unfold utf8Len
      rw [if_pos h1]
    rw [e1, hl, List.cons_append, List.nil_append, decodeLastRev_one _ _ h1]
  · by_cases h2 : c < 0x800
    · have e1 : (encodeChar c).reverse = [0x80 + c % 64, 0xC0 + c / 64] := by
        unfold encodeChar
        rw [if_neg h1, if_pos h2]
        rfl
      have hl : utf8Len c = 2 := by
        unfold utf8Len
        rw [if_neg h1, if_pos h2]
      have hz : isCont (0xC0 + c / 64) = false := by
        unfold isCont
        simp
        try omega
      rw [e1, hl]
      show decodeLastRev ((0x80 + c % 64) :: (0xC0 + c / 64) :: pre.reverse) = _
      rw [decodeLastRev_two _ _ _ (by omega) hz]
      simp only [Option.some.injEq, Prod.mk.injEq]
      exact ⟨by omega, trivial⟩
    · by_cases h3 : c < 0x10000
      · have e1 : (encodeChar c).reverse =
            [0x80 + c % 64, 0x80 + c / 64 % 64, 0xE0 + c / 4096] := by
          unfold encodeChar
          rw [if_neg h1, if_neg h2, if_pos h3]
          rfl
        have hl : utf8Len c = 3 := by
          unfold utf8Len
          rw [if_neg h1, if_neg h2, if_pos h3]
        have hz : isCont (0x80 + c / 64 % 64) = true := by
          unfold isCont
          simp
          omega
        have hy : isCont (0xE0 + c / 4096) = false := by
          unfold isCont
          simp
          omega
        rw [e1, hl]
        show decodeLastRev
            ((0x80 + c % 64) :: (0x80 + c / 64 % 64) :: (0xE0 + c / 4096) :: pre.reverse) = _
        rw [decodeLastRev_three _ _ _ _ (by omega) hz hy]
        simp only [Option.some.injEq, Prod.mk.injEq]
        refine ⟨?_, trivial⟩
        have hd : c / 4096 < 16 := by omega
        omega
      · have e1 : (encodeChar c).reverse =
            [0x80 + c % 64, 0x80 + c / 64 % 64, 0x80 + c / 4096 % 64, 0xF0 + c / 262144] := by
          unfold encodeChar
          rw [if_neg h1, if_neg h2, if_neg h3]
          rfl
        have hl : utf8Len c = 4 := by
          unfold utf8Len
          rw [if_neg h1, if_neg h2, if_neg h3]
        have hz : isCont (0x80 + c / 64 % 64) = true := by
          unfold isCont
          simp
          omega
        have hy : isCont (0x80 + c / 4096 % 64) = true := by
          unfold isCont
          simp
          omega
        rw [e1, hl]
        show decodeLastRev
            ((0x80 + c % 64) :: (0x80 + c / 64 % 64) :: (0x80 + c / 4096 % 64) ::
              (0xF0 + c / 262144) :: pre.reverse) = _
        rw [decodeLastRev_four _ _ _ _ _ (by omega) hz hy]
        simp only [Option.some.injEq, Prod.mk.injEq]
        refine ⟨?_, trivial⟩
        have hd : c / 262144 < 8 := by omega
        omega

end LeanStr

namespace LeanStr

/-- Decomposition of a nonempty valid byte list at its last character. -/
theorem validUtf8_decodeLast {bs : List Nat} (hv : ValidUtf8 bs) (hne : bs ≠ []) :
    ∃ c k, decodeLast bs = some (c, k) ∧ k = utf8Len c ∧
      ValidUtf8 (bs.take (bs.length - k)) := by
  obtain ⟨cs, hcs, rfl⟩ := hv
  rcases List.eq_nil_or_concat cs with rfl | ⟨cs0, c, rfl⟩
  · exact absurd rfl hne
  · rw [List.concat_eq_append] at hcs hne ⊢
    have hc : Scalar c := hcs c (by simp)
    have henc : utf8Encode (cs0 ++ [c]) = utf8Encode cs0 ++ encodeChar c := by
      rw [utf8Encode_append, utf8Encode_cons]
      simp [utf8Encode]
    refine ⟨c, utf8Len c, ?_, rfl, ?_⟩
    · rw [henc]
      exact decodeLast_append_encodeChar _ c hc.1
    · rw [henc]
      have hlen : (utf8Encode cs0 ++ encodeChar c).length - utf8Len c =
          (utf8Encode cs0).length := by
        rw [List.length_append, encodeChar_length]
        omega
      rw [hlen, List.take_left]
      exact ⟨cs0, fun x hx => hcs x (by simp [hx]), rfl⟩

theorem encodeChar_get_cont (c j : Nat) (h0 : 0 < j) (b : Nat)
    (hb : (encodeChar c)[j]? = some b) : 0x80 ≤ b ∧ b < 0xC0 := by
  unfold encodeChar at hb
  split_ifs at hb with h1 h2 h3
  · rcases j with _ | j
    · omega
    · simp at hb
  · rcases j with _ | _ | j
    · omega
    · simp at hb
      omega
    · simp at hb
  · rcases j with _ | _ | _ | j
    · omega
    · simp at hb
      omega
    · simp at hb
      omega
    · simp at hb
  · rcases j with _ | _ | _ | _ | j
    · omega
    · simp at hb
      omega
    · simp at hb
      omega
    · simp at hb
      omega
    · simp at hb

/-- Synchronisation: a claimed boundary inside a valid encoding falls between
two characters. -/
theorem utf8Encode_boundary (cs : List Nat) (hcs : ∀ c ∈ cs, c < 0x110000) (i : Nat)
    (hb : isCharBoundary (utf8Encode cs) i = true) :
    ∃ cs1 cs2, cs = cs1 ++ cs2 ∧ (utf8Encode cs1).length = i := by
  induction cs generalizing i with
  | nil =>
    refine ⟨[], [], rfl, ?_⟩
    unfold isCharBoundary at hb
    by_cases hi : i = 0
    · simp [utf8Encode, hi]
    · rw [if_neg hi] at hb
      simp [utf8Encode] at hb
      omega
  | cons c cs ih =>
    by_cases hi : i = 0
    · subst hi
      exact ⟨[], c :: cs, rfl, rfl⟩
    · have hc : c < 0x110000 := hcs c (by simp)
      rw [utf8Encode_cons] at hb
      by_cases hlt : i < (encodeChar c).length
      · exfalso
        have hgete : (encodeChar c ++ utf8Encode cs)[i]? = (encodeChar c)[i]? := by
          rw [List.getElem?_append, if_pos hlt]
        have hbsome : (encodeChar c)[i]? = some ((encodeChar c)[i]) :=
          List.getElem?_eq_getElem hlt
        have hcont := encodeChar_get_cont c i (by omega) _ hbsome
        unfold isCharBoundary at hb
        rw [if_neg hi, hgete, hbsome] at hb
        simp at hb
        omega
      · have hboundtail :
            isCharBoundary (utf8Encode cs) (i - (encodeChar c).length) = true := by
          unfold isCharBoundary at hb ⊢
          by_cases hi2 : i - (encodeChar c).length = 0
          · rw [if_pos hi2]
          · rw [if_neg hi2]
            rw [if_neg hi] at hb
            have hright : (encodeChar c ++ utf8Encode cs)[i]? =
                (utf8Encode cs)[i - (encodeChar c).length]? := by
              rw [List.getElem?_append, if_neg hlt]
            rw [hright] at hb
            cases hget : (utf8Encode cs)[i - (encodeChar c).length]? with
            | some b =>
              rw [hget] at hb
              exact hb
            | none =>
              rw [hget] at hb
              simp [List.length_append] at hb ⊢
              omega
        obtain ⟨cs1, cs2, hsplit, hlen⟩ := ih (fun x hx => hcs x (by simp [hx]))
          (i - (encodeChar c).length) hboundtail
        refine ⟨c :: cs1, cs2, by rw [hsplit, List.cons_append], ?_⟩
        rw [utf8Encode_cons, List.length_append, hlen]
        omega

/-- Boundary split of a valid byte list into two valid halves. -/
theorem validUtf8_boundary {bs : List Nat} (hv : ValidUtf8 bs) {i : Nat}
    (hb : isCharBoundary bs i = true) :
    ∃ E1 E2, bs = E1 ++ E2 ∧ E1.length = i ∧ ValidUtf8 E1 ∧ ValidUtf8 E2 := by
  obtain ⟨cs, hcs, rfl⟩ := hv
  obtain ⟨cs1, cs2, rfl, hlen⟩ := utf8Encode_boundary cs (fun c hc => (hcs c hc).1) i hb
  exact ⟨utf8Encode cs1, utf8Encode cs2, utf8Encode_append _ _, hlen,
    ⟨cs1, fun c h => hcs c (by simp [h]), rfl⟩,
    ⟨cs2, fun c h => hcs c (by simp [h]), rfl⟩⟩

/-- Decomposition of a nonempty valid byte list at its first character. -/
theorem validUtf8_decodeFirst {bs : List Nat} (hv : ValidUtf8 bs) (hne : bs ≠ []) :
    ∃ c k, decodeFirst bs = some (c, k) ∧ k = utf8Len c ∧ k ≤ bs.length ∧
      ValidUtf8 (bs.drop k) := by
  obtain ⟨cs, hcs, rfl⟩ := hv
  cases cs with
  | nil => exact absurd rfl hne
  | cons c cs =>
    have hc := hcs c (by simp)
    rw [utf8Encode_cons]
    refine ⟨c, utf8Len c, decodeFirst_encodeChar c _ hc.1, rfl, ?_, ?_⟩
    · rw [List.length_append, encodeChar_length]
      have := utf8Len_pos c
      omega
    · rw [← encodeChar_length, List.drop_left]
      exact ⟨cs, fun x h => hcs x (by simp [h]), rfl⟩

theorem retainAux_utf8 (p : Nat → Bool) (cs : List Nat) (hcs : ∀ c ∈ cs, c < 0x110000)
    (fuel : Nat) (hf : (utf8Encode cs).length ≤ fuel) :
    retainAux p fuel (utf8Encode cs) = utf8Encode (cs.filter p) := by
  induction cs generalizing fuel with
  | nil => cases fuel <;> rfl
  | cons c cs ih =>
    have hc : c < 0x110000 := hcs c (by simp)
    have hel := encodeChar_length c
    have hpos := utf8Len_pos c
    rw [utf8Encode_cons] at hf ⊢
    obtain ⟨b, t, hbt⟩ : ∃ b t, encodeChar c = b :: t := by
      cases h : encodeChar c with
      | nil =>
        rw [h] at hel
        simp at hel
        omega
      | cons b t => exact ⟨b, t, rfl⟩
    cases fuel with
    | zero =>
      exfalso
      rw [List.length_append] at hf
      omega
    | succ f =>
      have hdf := decodeFirst_encodeChar c (utf8Encode cs) hc
      have hstep : retainAux p (f + 1) (encodeChar c ++ utf8Encode cs) =
          (if p c then (encodeChar c ++ utf8Encode cs).take (utf8Len c) else []) ++
            retainAux p f ((encodeChar c ++ utf8Encode cs).drop (utf8Len c)) := by
        rw [hbt, List.cons_append]
        have e : retainAux p (f + 1) (b :: (t ++ utf8Encode cs)) =
            match decodeFirst (b :: (t ++ utf8Encode cs)) with
            | none => []
            | some (c2, k) =>
              (if p c2 then (b :: (t ++ utf8Encode cs)).take k else []) ++
                retainAux p f ((b :: (t ++ utf8Encode cs)).drop k) := rfl
        rw [e, ← List.cons_append, ← hbt, hdf]
      rw [hstep]
      have htake : (encodeChar c ++ utf8Encode cs).take (utf8Len c) = encodeChar c := by
        rw [← hel, List.take_left]
      have hdrop : (encodeChar c ++ utf8Encode cs).drop (utf8Len c) = utf8Encode cs := by
        rw [← hel, List.drop_left]
      rw [htake, hdrop,
        ih (fun x h => hcs x (by simp [h])) f (by rw [List.length_append] at hf; omega),
        List.filter_cons]
      cases hp : p c
      · simp
      · simp [utf8Encode_cons]

/-- Validity is preserved by the retain compaction. -/
theorem validUtf8_retain (p : Nat → Bool) {bs : List Nat} (hv : ValidUtf8 bs) :
    ValidUtf8 (retainBytes p bs) := by
  obtain ⟨cs, hcs, rfl⟩ := hv
  rw [retainBytes, retainAux_utf8 p cs (fun c h => (hcs c h).1) _ (le_refl _)]
  exact ⟨cs.filter p, fun c h => hcs c (List.mem_of_mem_filter h), rfl⟩

end LeanStr

namespace LeanStr

/-- Splitting a byte list at a known-length prefix. -/
theorem split_take_drop {bs E1 E2 : List Nat} (h : bs = E1 ++ E2) {i : Nat}
    (hi : E1.length = i) : bs.take i = E1 ∧ bs.drop i = E2 := by
  subst h
  subst hi
  exact ⟨List.take_left _ _, List.drop_left _ _⟩

/-- One successful mutation preserves well-formedness and UTF-8 validity of
the content. -/
theorem applyMut_valid (m : Mutation) (r : Repr) (st : Store) (hWF : WF r st)
    (hv : ValidUtf8 (r.asBytes st)) (hm : MutOK m)
    (r2 : Repr) (st2 : Store) (hok : applyMut m r st = some (.ok (r2, st2))) :
    WF r2 st2 ∧ ValidUtf8 (r2.asBytes st2) := by
  cases m with
  | reserve n =>
    simp only [applyMut, Option.some.injEq] at hok
    obtain ⟨hWF2, hbytes, -, -, -, -, -, -, -⟩ := reserve_spec r n st hWF r2 st2 hok
    refine ⟨hWF2, ?_⟩
    rw [hbytes]
    exact hv
  | shrinkTo n =>
    simp only [applyMut, Option.some.injEq] at hok
    obtain ⟨hWF2, hbytes, -, -, -, -, -⟩ := shrinkTo_spec r n st hWF r2 st2 hok
    refine ⟨hWF2, ?_⟩
    rw [hbytes]
    exact hv
  | pushStr s =>
    obtain ⟨hWF2, hbytes, -, -⟩ := pushStr_spec r s st hWF r2 st2 hok
    refine ⟨hWF2, ?_⟩
    rw [hbytes]
    exact validUtf8_append hv hm
  | retain p =>
    obtain ⟨hWF2, -, hbytes, -⟩ := retain_spec r p st hWF r2 st2 hok
    refine ⟨hWF2, ?_⟩
    rw [hbytes]
    exact validUtf8_retain p hv
  | clear =>
    simp only [applyMut] at hok
    cases hc : clearLS r st with
    | none =>
      rw [hc] at hok
      exact absurd hok (by simp)
    | some q =>
      obtain ⟨a, b⟩ := q
      rw [hc] at hok
      simp only [Option.map, Option.some.injEq, Except.ok.injEq, Prod.mk.injEq] at hok
      obtain ⟨rfl, rfl⟩ := hok
      obtain ⟨hWF2, hbytes, -, -⟩ := clearLS_spec r st hWF a b hc
      refine ⟨hWF2, ?_⟩
      rw [hbytes]
      exact validUtf8_nil
  | pop =>
    simp only [applyMut] at hok
    cases hp : r.pop st with
    | none =>
      rw [hp] at hok
      exact absurd hok (by simp)
    | some e =>
      rw [hp] at hok
      cases e with
      | error er => exact absurd hok (by simp [Except.map])
      | ok t =>
        obtain ⟨res, a, b⟩ := t
        simp only [Option.map, Except.map, Option.some.injEq, Except.ok.injEq,
          Prod.mk.injEq] at hok
        obtain ⟨rfl, rfl⟩ := hok
        obtain ⟨hWF2, -, hdisj, -⟩ := pop_spec r st hWF res a b hp
        refine ⟨hWF2, ?_⟩
        rcases hdisj with ⟨-, rfl, rfl⟩ | ⟨c, k, hdl, -, hbytes⟩
        · exact hv
        · have hne : r.asBytes st ≠ [] := by
            intro hnil
            rw [hnil] at hdl
            exact Option.noConfusion hdl
          obtain ⟨c2, k2, hdl2, hk2, hvtail⟩ := validUtf8_decodeLast hv hne
          rw [hdl] at hdl2
          simp only [Option.some.injEq, Prod.mk.injEq] at hdl2
          obtain ⟨-, rfl⟩ := hdl2
          rw [hbytes, ← asBytes_length r st hWF]
          exact hvtail
  | remove idx =>
    simp only [applyMut] at hok
    cases hp : r.remove idx st with
    | none =>
      rw [hp] at hok
      exact absurd hok (by simp)
    | some e =>
      rw [hp] at hok
      cases e with
      | error er => exact absurd hok (by simp [Except.map])
      | ok t =>
        obtain ⟨ch, a, b⟩ := t
        simp only [Option.map, Except.map, Option.some.injEq, Except.ok.injEq,
          Prod.mk.injEq] at hok
        obtain ⟨rfl, rfl⟩ := hok
        obtain ⟨hWF2, -, ⟨k, hdf, hbytes⟩, -⟩ := remove_spec r idx st hWF ch a b hp
        refine ⟨hWF2, ?_⟩
        have hpre : isCharBoundary (r.asBytes st) idx = true ∧ idx < r.len := by
          by_contra hn
          rw [Repr.remove, if_neg hn] at hp
          exact Option.noConfusion hp
        obtain ⟨E1, E2, hsplit, hE1len, hvE1, hvE2⟩ := validUtf8_boundary hv hpre.1
        obtain ⟨htake, hdrop⟩ := split_take_drop hsplit hE1len
        have hE2ne : E2 ≠ [] := by
          intro hnil
          have hlen := asBytes_length r st hWF
          rw [hsplit, hnil, List.append_nil] at hlen
          have := hpre.2
          omega
        obtain ⟨c2, k2, hdf2, hk2, hk2le, hvdrop⟩ := validUtf8_decodeFirst hvE2 hE2ne
        rw [hdrop] at hdf
        rw [hdf] at hdf2
        simp only [Option.some.injEq, Prod.mk.injEq] at hdf2
        obtain ⟨-, rfl⟩ := hdf2
        have hdrop2 : (r.asBytes st).drop (idx + k) = E2.drop k := by
          rw [hsplit, ← hE1len, List.drop_append]
        rw [hbytes, htake, hdrop2]
        exact validUtf8_append hvE1 hvdrop
  | insertStr idx s =>
    simp only [applyMut] at hok
    obtain ⟨hWF2, -, hbytes, -⟩ := insertStr_spec r idx s st hWF r2 st2 hok
    refine ⟨hWF2, ?_⟩
    have hb : isCharBoundary (r.asBytes st) idx = true := by
      by_contra hn
      rw [Repr.insertStr, if_neg hn] at hok
      exact Option.noConfusion hok
    obtain ⟨E1, E2, hsplit, hE1len, hvE1, hvE2⟩ := validUtf8_boundary hv hb
    obtain ⟨htake, hdrop⟩ := split_take_drop hsplit hE1len
    rw [hbytes, htake, hdrop]
    exact validUtf8_append (validUtf8_append hvE1 hm) hvE2

/-- C3. UTF-8 preservation: starting from a well-formed `Repr` whose content
is valid UTF-8, after any finite sequence of mutations (push_str, pop, remove,
insert_str, retain, reserve, shrink_to, clear) with UTF-8 arguments that
succeeds, the content read back by `as_bytes` is still valid UTF-8. -/
theorem utf8_preservation (ms : List Mutation) (r : Repr) (st : Store)
    (hWF : WF r st) (hv : ValidUtf8 (r.asBytes st)) (hms : ∀ m ∈ ms, MutOK m) :
    ∀ r2 st2, applySeq ms r st = some (.ok (r2, st2)) → ValidUtf8 (r2.asBytes st2) := by
  induction ms generalizing r st with
  | nil =>
    intro r2 st2 h
    rw [applySeq] at h
    simp only [Option.some.injEq, Except.ok.injEq, Prod.mk.injEq] at h
    obtain ⟨rfl, rfl⟩ := h
    exact hv
  | cons m ms ih =>
    intro r2 st2 h
    rw [applySeq] at h
    cases ha : applyMut m r st with
    | none =>
      rw [ha] at h
      exact Option.noConfusion h
    | some e =>
      rw [ha] at h
      cases e with
      | error er => exact absurd h (by simp)
      | ok q =>
        obtain ⟨r1, st1⟩ := q
        obtain ⟨hWF1, hv1⟩ :=
          applyMut_valid m r st hWF hv (hms m (by simp)) r1 st1 ha
        exact ih r1 st1 hWF1 hv1 (fun m2 hm2 => hms m2 (by simp [hm2])) r2 st2 h

/-- Witness for `utf8_preservation`: push a two-byte character, then pop it. -/
theorem utf8_preservation_witness :
    ValidUtf8 ((Repr.inline [97]).asBytes emptyStore) :=
  utf8_preservation [.pushStr [0xC3, 0xA9], .pop] (.inline [97]) emptyStore
    (by decide) ⟨[97], by decide, by decide⟩
    (by
      intro m hm
      simp only [List.mem_cons, List.not_mem_nil, or_false] at hm
      rcases hm with rfl | rfl
      · exact ⟨[0xE9], by decide, by decide⟩
      · trivial)
    (.inline [97]) emptyStore (by rfl)

end LeanStr
